import Mathlib

/-!
Verification development for the sales-order dashboard repository.

The definitions below are shallow embeddings of the repository's string
normalization, query ranking, reconciliation pipeline, merge and action
handlers.  JavaScript strings are modelled as Lean strings (lists of
characters); character classes are written via code points so that the
regex fragments of the source can be modelled operationally.
-/

/-- Character class of the JS regex [\s] (whitespace): tab, LF, VT, FF, CR,
space, NBSP, BOM.  (Further exotic Unicode space separators are omitted from
the model; no proof depends on the exact extent of this set.) -/
def jsWhitespace (c : Char) : Bool :=
  c.toNat = 9 || c.toNat = 10 || c.toNat = 11 || c.toNat = 12 ||
  c.toNat = 13 || c.toNat = 32 || c.toNat = 160 || c.toNat = 65279

/-- JS LineTerminator characters: LF, CR, LS, PS.  The regex '.' (without the
s flag) matches every character except these. -/
def jsLineTerminator (c : Char) : Bool :=
  c.toNat = 10 || c.toNat = 13 || c.toNat = 8232 || c.toNat = 8233

/-- Model of String.prototype.toUpperCase, character-wise on ASCII letters. -/
def jsToUpperChar (c : Char) : Char :=
  if 97 ≤ c.toNat ∧ c.toNat ≤ 122 then Char.ofNat (c.toNat - 32) else c

/-- Model of String.prototype.toLowerCase, character-wise on ASCII letters. -/
def jsToLowerChar (c : Char) : Char :=
  if 65 ≤ c.toNat ∧ c.toNat ≤ 90 then Char.ofNat (c.toNat + 32) else c

/-- Model of String.prototype.trim on character lists. -/
def jsTrimList (l : List Char) : List Char :=
  ((l.dropWhile jsWhitespace).reverse.dropWhile jsWhitespace).reverse

/-- Model of String.prototype.trim. -/
def jsTrimStr (s : String) : String := String.mk (jsTrimList s.data)

/-- Model of String.prototype.toUpperCase. -/
def jsUpperStr (s : String) : String := String.mk (s.data.map jsToUpperChar)

/-- Model of String.prototype.toLowerCase. -/
def jsLowerStr (s : String) : String := String.mk (s.data.map jsToLowerChar)

/-- The lazy tail of the regex fragment [.*?\]: starting after an opening
bracket, scan forward through '.'-matchable characters (everything except a
line terminator) to the first closing bracket; return the remainder of the
input after that bracket, or fail. Code point 93 is the ']' character. -/
def bracketClose? : List Char → Option (List Char)
  | [] => none
  | c :: rest =>
    if c.toNat = 93 then some rest
    else if jsLineTerminator c then none
    else bracketClose? rest

/-- Whether the regex /\s*\[.*?\]/ matches at the very start of the input;
on success returns the input remaining after the match.  The greedy \s* can
only succeed with the maximal whitespace run (a shorter run would leave a
whitespace character where '[' is required).  Code point 91 is '['. -/
def stripMatchAt? (l : List Char) : Option (List Char) :=
  match l.dropWhile jsWhitespace with
  | [] => none
  | c :: after => if c.toNat = 91 then bracketClose? after else none

/-- Fuelled scanner for the global replacement s.replace(/\s*\[.*?\]/g, ""):
walk left to right; at each position either delete the leftmost match and
continue after it, or keep the character.  The fuel is only a structural
termination device; stripBrackets always supplies enough. -/
def stripGo : Nat → List Char → List Char
  | _, [] => []
  | 0, l => l
  | fuel + 1, c :: rest =>
    match stripMatchAt? (c :: rest) with
    | some rem => stripGo fuel rem
    | none => c :: stripGo fuel rest

/-- Model of s.replace(/\s*\[.*?\]/g, ""). -/
def stripBrackets (l : List Char) : List Char := stripGo l.length l

/-- normalizeFieldForKey from the table component: strip every bracketed
annotation, trim, upper-case.  Absent values count as the empty string. -/
def normalizeFieldForKey (value : Option String) : String :=
  String.mk ((jsTrimList (stripBrackets (value.getD "").data)).map jsToUpperChar)

/-- makeDispatchKey from the table component: the composite identity, four
normalized fields joined with a pipe character. -/
def makeDispatchKey (so customer item color : Option String) : String :=
  normalizeFieldForKey so ++ "|" ++ normalizeFieldForKey customer ++ "|" ++
    normalizeFieldForKey item ++ "|" ++ normalizeFieldForKey color

/-- normItemKey from the table component: strip bracketed annotations,
collapse whitespace runs, trim, lower-case; falsy input gives "". -/
def collapseWsGo : Bool → List Char → List Char
  | _, [] => []
  | prevWs, c :: rest =>
    if jsWhitespace c then
      (if prevWs then collapseWsGo true rest else ' ' :: collapseWsGo true rest)
    else c :: collapseWsGo false rest

/-- Model of s.replace(/\s+/g, " "): each maximal whitespace run becomes one
space. -/
def collapseWs (l : List Char) : List Char := collapseWsGo false l

/-- normItemKey from the table component. -/
def normItemKey (s : Option String) : String :=
  match s with
  | none => ""
  | some s0 =>
    if s0 = "" then ""
    else jsLowerStr (String.mk (jsTrimList (collapseWs (stripBrackets s0.data))))

/-- normalizeCustomerForCompare from the table component: strip bracketed
annotations, trim, lower-case. -/
def normalizeCustomerForCompare (s : Option String) : String :=
  jsLowerStr (jsTrimStr (String.mk (stripBrackets (s.getD "").data)))

/-- normalizeItemForCompare from the table component: trim, lower-case. -/
def normalizeItemForCompare (s : Option String) : String :=
  jsLowerStr (jsTrimStr (s.getD ""))

/-- normalizeColorForCompare from the table component: trim, lower-case. -/
def normalizeColorForCompare (s : Option String) : String :=
  jsLowerStr (jsTrimStr (s.getD ""))

/-! ## JSON-ish values and association-list records

The verify boundary works on loosely typed records.  A value is null, a
string, a number, or an object.  Objects are abstracted to their number of
own keys plus an identity tag: the merge logic only ever copies object
values wholesale and asks hasTimestamp of them, and on an object every
branch of the source's hasTimestamp check short-circuits to true except for
an object with no keys at all (the "value" and "seconds" probes only ever
return true early), so key count determines the answer. -/

inductive JVal where
  | jnull
  | jstr (s : String)
  | jnum (n : Int)
  | jobj (numKeys : Nat) (tag : Nat)
deriving DecidableEq, Repr

/-- JS truthiness of a carried value. -/
def jsTruthy : JVal → Bool
  | .jnull => false
  | .jstr s => !(s == "")
  | .jnum n => !(n == 0)
  | .jobj _ _ => true

/-- Model of String(v) on a non-null carried value. -/
def jsToStringJ : JVal → String
  | .jnull => "null"
  | .jstr s => s
  | .jnum n => toString n
  | .jobj _ _ => "[object Object]"

/-- A record: ordered association list of own properties (JS objects keep
string keys in insertion order and never hold a key twice). -/
abbrev JRow := List (String × JVal)

/-- Property read; none models an absent (undefined) property. -/
def getProp (r : JRow) (p : String) : Option JVal := r.lookup p

/-- Property write: replace in place if the key exists, else append, exactly
as JS assignment does on an object with unique keys. -/
def setProp : JRow → String → JVal → JRow
  | [], p, v => [(p, v)]
  | q :: rest, p, v => if q.1 = p then (p, v) :: rest else q :: setProp rest p v

/-- Generic JS-object-style assignment on association lists. -/
def setAssocG {β : Type} : List (String × β) → String → β → List (String × β)
  | [], k, v => [(k, v)]
  | e :: rest, k, v => if e.1 = k then (k, v) :: rest else e :: setAssocG rest k v

/-- The keys of a record are distinct (true of every JS object). -/
def propsNodup (r : JRow) : Prop := (r.map Prod.fst).Nodup

instance (r : JRow) : Decidable (propsNodup r) := by
  unfold propsNodup
  infer_instance

/-- normalizeKeyPart from the verify route: identical normalization to the
client's normalizeFieldForKey. -/
def normalizeKeyPart (s : Option String) : String := normalizeFieldForKey s

/-- makeGroupKey from the verify route. -/
def makeGroupKey (so customer item color : Option String) : String :=
  normalizeKeyPart so ++ "|" ++ normalizeKeyPart customer ++ "|" ++
    normalizeKeyPart item ++ "|" ++ normalizeKeyPart color

/-- Key-field extraction in the merge: (r.F as string) ?? null collapses
null/undefined to null; any other value reaches normalizeKeyPart through
(s ?? "").toString(). -/
def keyField (r : JRow) (p : String) : Option String :=
  match getProp r p with
  | none => none
  | some .jnull => none
  | some v => some (jsToStringJ v)

/-- The composite key under which a verify record is grouped server-side. -/
def rowGroupKey (r : JRow) : String :=
  makeGroupKey (keyField r "SO_No") (keyField r "Customer")
    (keyField r "Item") (keyField r "Color")

/-- hasTimestamp from mergeVerifyRows (see the JVal comment for objects). -/
def hasTimestampJ : Option JVal → Bool
  | none => false
  | some .jnull => false
  | some (.jstr s) => !(jsTrimStr s == "")
  | some (.jnum _) => true
  | some (.jobj k _) => decide (0 < k)

/-- The generic merge branch replaces the existing value when it is
undefined, null, or a string that trims to empty. -/
def replaceableVal : Option JVal → Bool
  | none => true
  | some .jnull => true
  | some (.jstr s) => jsTrimStr s == ""
  | some _ => false

/-- A value that the spec's "first non-null/non-empty" selection accepts. -/
def goodVal : JVal → Bool
  | .jnull => false
  | .jstr s => !(jsTrimStr s == "")
  | _ => true

/-- One property of an incoming record merged into the accumulated record:
the body of the for-loop over Object.keys(r) in mergeVerifyRows. -/
def mergePropStep (ex : JRow) (pv : String × JVal) : JRow :=
  let ev := getProp ex pv.1
  if replaceableVal ev then
    (if pv.2 = JVal.jnull then ex else setProp ex pv.1 pv.2)
  else if pv.1 = "verified_at" && !hasTimestampJ ev && hasTimestampJ (some pv.2) then
    setProp ex pv.1 pv.2
  else ex

/-- Merge a later record into the accumulated record for its key. -/
def mergeInto (existing : JRow) (r : JRow) : JRow := r.foldl mergePropStep existing

/-- One step of the fold over the input rows: a JS Map keyed by composite
key, set-in-place for an existing key, append for a new one. -/
def insertMerge : List (String × JRow) → String → JRow → List (String × JRow)
  | [], k, r => [(k, r)]
  | e :: rest, k, r =>
    if e.1 = k then (k, mergeInto e.2 r) :: rest else e :: insertMerge rest k r

/-- The grouping map built by mergeVerifyRows: a fold of insertMerge over
the input rows, starting from the empty map. -/
def mergeAcc (rows : List JRow) : List (String × JRow) :=
  rows.foldl (fun acc r => insertMerge acc (rowGroupKey r) r) []

/-- mergeVerifyRows from the verify route: the values of the grouping map,
in insertion order. -/
def mergeVerifyRows (rows : List JRow) : List JRow := (mergeAcc rows).map Prod.snd

/-- The effect of the merge on a single property, as a function of the
accumulated value and the incoming value (none = property absent). -/
def mergeField (ev : Option JVal) (p : String) (rv : Option JVal) : Option JVal :=
  match rv with
  | none => ev
  | some v =>
    if replaceableVal ev then (if v = JVal.jnull then ev else some v)
    else if p = "verified_at" && !hasTimestampJ ev && hasTimestampJ (some v) then some v
    else ev

/-- The first accepted value for property p among a group, in input order. -/
def firstGoodVal (g : List JRow) (p : String) : Option JVal :=
  g.findSome? (fun r =>
    match getProp r p with
    | some v => if goodVal v then some v else none
    | none => none)

/-- The verified_at value of the first record of a group that has one. -/
def firstTimestampVal (g : List JRow) : Option JVal :=
  g.findSome? (fun r =>
    if hasTimestampJ (getProp r "verified_at") then getProp r "verified_at" else none)

/-! ## Query ranking (sales-orders route) -/

/-- One candidate row as seen by the dedup window of the query.  The parsed
order date SAFE_CAST(so_date_parsed AS DATE) is modelled as an integer day
number, null when unparseable. -/
structure QRow where
  SO_No : Option String := none
  Item : Option String := none
  Color : Option String := none
  Rating : Option String := none
  so_date_parsed : Option Int := none
deriving DecidableEq, Repr

/-- UPPER(TRIM(COALESCE(x, ''))), modelled with the ASCII case map. -/
def sqlUpperTrim (s : Option String) : String := jsUpperStr (jsTrimStr (s.getD ""))

/-- LOWER(TRIM(x)). -/
def sqlLowerTrim (s : String) : String := jsLowerStr (jsTrimStr s)

/-- ratingPriorityCase from the sales-orders route. -/
def ratingPriority (rating : Option String) : Nat :=
  let u := sqlUpperTrim rating
  if u = "HIGH" then 1
  else if u = "HIGH - CASH" then 2
  else if u = "CASH" then 3
  else if u = "CASH - NEW CLIENT" then 4
  else 5

/-- PARTITION BY COALESCE(SO_No, ''), LOWER(TRIM(Item)), COALESCE(Color, ''). -/
def dedupGroupKey (r : QRow) : String × Option String × String :=
  (r.SO_No.getD "", r.Item.map sqlLowerTrim, r.Color.getD "")

/-- Two rows fall in the same deduplication group. -/
def sameDedupGroup (a b : QRow) : Prop := dedupGroupKey a = dedupGroupKey b

instance (a b : QRow) : Decidable (sameDedupGroup a b) := by
  unfold sameDedupGroup; infer_instance

/-- ORDER BY key 2: SAFE_CAST(so_date_parsed AS DATE) ASC NULLS LAST. -/
def dateKey (r : QRow) : WithTop Int :=
  match r.so_date_parsed with
  | some d => (d : WithTop Int)
  | none => ⊤

/-- ORDER BY key 3: COALESCE(SO_No, '') ASC. -/
def soKey (r : QRow) : String := r.SO_No.getD ""

/-- The strict ordering of the shared ORDER BY triple: rating priority
ascending, then parsed date ascending with nulls last, then order number
ascending. -/
def rowOrderLt (a b : QRow) : Prop :=
  ratingPriority a.Rating < ratingPriority b.Rating ∨
    (ratingPriority a.Rating = ratingPriority b.Rating ∧
      (dateKey a < dateKey b ∨ (dateKey a = dateKey b ∧ soKey a < soKey b)))

instance (a b : QRow) : Decidable (rowOrderLt a b) := by
  unfold rowOrderLt; infer_instance

/-- The non-strict companion order. -/
def rowOrderLe (a b : QRow) : Prop := ¬ rowOrderLt b a

instance (a b : QRow) : Decidable (rowOrderLe a b) := by
  unfold rowOrderLe; infer_instance

/-- The full ORDER BY key, packaged lexicographically. -/
def rowSortKey (r : QRow) : Lex (Nat × Lex (WithTop Int × String)) :=
  toLex (ratingPriority r.Rating, toLex (dateKey r, soKey r))

/-- ROW_NUMBER() ... ORDER BY keeps the least row of each group under the
triple; which of two order-equivalent rows wins is unspecified in SQL, and
the model keeps the first. -/
def dedupKeepPair (a b : QRow) : QRow := if rowOrderLt b a then b else a

/-- Stable insertion of one element under a boolean "goes before or ties"
test. -/
def insertSorted {α : Type} (le : α → α → Bool) (x : α) : List α → List α
  | [] => [x]
  | y :: rest => if le x y then x :: y :: rest else y :: insertSorted le x rest

/-- Stable sort; models the engine sort, whose result any stable sort
realizes when the comparator is consistent. -/
def insertionSortBy {α : Type} (le : α → α → Bool) (l : List α) : List α :=
  l.foldr (insertSorted le) []

/-- The final SELECT applies the same ORDER BY triple to the kept rows. -/
def finalOrder (rows : List QRow) : List QRow :=
  insertionSortBy (fun a b => decide (rowOrderLe a b)) rows

/-! ## Client rows and the reconciliation pipeline (table component load) -/

/-- A JS number as the pipeline meets it: an exact rational or NaN. -/
inductive JNum where
  | num (q : ℚ)
  | nan
deriving DecidableEq, Repr

/-- One client-side order row.  Only the fields the reconciler reads are
modelled; uid stands for the generated __uid and pending for __pending. -/
structure SRow where
  SO_No : Option String := none
  Customer : Option String := none
  Item : Option String := none
  ItemCode : Option String := none
  Color : Option String := none
  New_Color : Option String := none
  Size : Option String := none
  SO_Date : Option String := none
  so_date_parsed : Option String := none
  OrderQty : Option ℚ := none
  Stock : Option JNum := none
  uid : String := ""
  pending : Bool := false
deriving DecidableEq, Repr

/-- The composite key of a client row as every call site computes it:
makeDispatchKey(SO_No, Customer, Item, Color).toUpperCase(). -/
def rowKeyUpper (r : SRow) : String :=
  jsUpperStr (makeDispatchKey r.SO_No r.Customer r.Item r.Color)

/-- The dispatched-key set as load normalizes it: (k ?? "").trim().toUpperCase(). -/
def dispatchedNorm (keys : List String) : List String :=
  keys.map (fun k => jsUpperStr (jsTrimStr k))

/-- verifyHasTimestamp from the table component; identical to the server's
hasTimestamp on the modelled values (see the JVal comment). -/
def verifyHasTimestamp (v : Option JVal) : Bool :=
  match v with
  | none => false
  | some .jnull => false
  | some (.jstr s) => !(jsTrimStr s == "")
  | some (.jnum _) => true
  | some (.jobj k _) => decide (0 < k)

/-- The composite key of a verify record on the client. -/
def verifyRowKey (r : JRow) : String :=
  jsUpperStr (makeDispatchKey (keyField r "SO_No") (keyField r "Customer")
    (keyField r "Item") (keyField r "Color"))

/-- Keys of verify records without a completion timestamp (localPendingSet);
a list standing for a set, only membership is ever used. -/
def localPendingSet (vrows : List JRow) : List String :=
  (vrows.filter (fun r => !verifyHasTimestamp (getProp r "verified_at"))).map verifyRowKey

/-- verifyMap: key to record, later records overwriting earlier ones as JS
object assignment does. -/
def verifyMapOf (vrows : List JRow) : List (String × JRow) :=
  vrows.foldl (fun acc r => setAssocG acc (verifyRowKey r) r) []

/-- Per-row annotation applied to the fetched page (uid, __pending flag,
New_Color backfill from the verify record).  The generated uid is modelled
by the row index; the selection-state side effect of the source (a UI
pre-selection) is not part of any claim and is not modelled. -/
def annotateRow (pend : List String) (vmap : List (String × JRow)) (i : Nat) (r : SRow) : SRow :=
  let key := rowKeyUpper r
  let newColorFromServer : Option String :=
    match vmap.lookup key with
    | some vr =>
      match getProp vr "New_Color" with
      | some v => if jsTruthy v then some (jsToStringJ v) else none
      | none => none
    | none => none
  { r with
    uid := toString i
    pending := pend.contains key
    New_Color := r.New_Color.orElse (fun _ => newColorFromServer) }

/-- The annotation pass over the page. -/
def annotateRows (pend : List String) (vmap : List (String × JRow)) (rows : List SRow) : List SRow :=
  rows.enum.map (fun p => annotateRow pend vmap p.1 p.2)

/-- Dispatched exclusion: applied only when the set is non-empty. -/
def dispatchFilterStage (dNorm : List String) (rows : List SRow) : List SRow :=
  if dNorm.isEmpty then rows
  else rows.filter (fun r => !(dNorm.contains (rowKeyUpper r)))

/-- Pending-verification exclusion. -/
def pendingFilterStage (pend : List String) (rows : List SRow) : List SRow :=
  if pend.isEmpty then rows
  else rows.filter (fun r => !(pend.contains (rowKeyUpper r)))

/-- Exclusion by the component's own optimistic pendingMap keys. -/
def originPendingFilterStage (originKeys : List String) (rows : List SRow) : List SRow :=
  let upperKeys := originKeys.map jsUpperStr
  if upperKeys.isEmpty then rows
  else rows.filter (fun r => !(upperKeys.contains (rowKeyUpper r)))

/-- The (customer, item, color) key used against the invoice map. -/
def invoiceKeyOf (r : SRow) : String :=
  normalizeCustomerForCompare r.Customer ++ "|" ++
    normalizeItemForCompare (r.Item.orElse (fun _ => r.ItemCode)) ++ "|" ++
    normalizeColorForCompare r.Color

/-- tryParseToIso: empty-ish strings fail, otherwise the platform date
parser (a parameter of the model) decides. -/
def tryParseToIso (parseIso : String → Option String) (s : String) : Option String :=
  if jsTrimStr s = "" then none else parseIso (jsTrimStr s)

/-- Invoice-history exclusion: hide a row whose order date parses and is
strictly earlier than the last matching invoice date (ISO strings compare
lexicographically).  The construction of the invoice map itself happens
upstream and is passed in. -/
def invoiceFilterStage (parseIso : String → Option String)
    (invMap : List (String × String)) (rows : List SRow) : List SRow :=
  rows.filter (fun r =>
    match invMap.lookup (invoiceKeyOf r) with
    | none => true
    | some invIso =>
      match tryParseToIso parseIso ((r.SO_Date.orElse (fun _ => r.so_date_parsed)).getD "") with
      | none => true
      | some soIso => !(decide (soIso < invIso)))

/-- One stock-batch response row; Closing_Stock is modelled after the
Number() coercion (none stands for an absent value, which coerces to NaN). -/
structure StockRec where
  Item : Option String := none
  normalized_item : Option String := none
  Color : Option String := none
  Closing_Stock : Option JNum := none
deriving DecidableEq, Repr

/-- The effective closing-stock number of a response row. -/
def closingOf (s : StockRec) : JNum := s.Closing_Stock.getD JNum.nan

/-- (s.normalized_item ?? s.Item ?? "").toString().trim().toLowerCase(). -/
def stockNormOf (s : StockRec) : String :=
  jsLowerStr (jsTrimStr ((s.normalized_item.orElse (fun _ => s.Item)).getD ""))

/-- Add into an object-backed numeric accumulator map. -/
def addAssocQ : List (String × ℚ) → String → ℚ → List (String × ℚ)
  | [], k, q => [(k, q)]
  | e :: rest, k, q => if e.1 = k then (k, e.2 + q) :: rest else e :: addAssocQ rest k q

/-- totalStockMap: aggregate closing stock per normalized item, skipping
empty keys and NaN values. -/
def totalStockMap (srows : List StockRec) : List (String × ℚ) :=
  srows.foldl (fun acc s =>
    let norm := stockNormOf s
    if norm = "" then acc
    else
      match closingOf s with
      | JNum.nan => acc
      | JNum.num cs => addAssocQ acc norm cs) []

/-- The distinct non-empty normalized item keys of the current page, which
drive the batch request. -/
def stockItemKeys (rows : List SRow) : List String :=
  ((rows.map (fun r => normItemKey (r.Item.orElse (fun _ => r.ItemCode)))).filter
    (fun k => !(k == ""))).dedup

/-- Stock annotation of one row from the aggregated map. -/
def assignStockRow (m : List (String × ℚ)) (r : SRow) : SRow :=
  let key := normItemKey (r.Item.orElse (fun _ => r.ItemCode))
  { r with Stock := if key = "" then none else (m.lookup key).map JNum.num }

/-- The stock stage: the batch is only issued when some key exists; the
per-color map feeds only the display cell and is not modelled. -/
def stockAssignStage (srows : List StockRec) (rows : List SRow) : List SRow :=
  if (stockItemKeys rows).isEmpty then rows
  else rows.map (assignStockRow (totalStockMap srows))

/-- Sort key 1: Number(r.OrderQty ?? 0). -/
def qtyKey (r : SRow) : ℚ := r.OrderQty.getD 0

/-- Sort key 2: the stock value when it is a non-NaN number, else minus
infinity. -/
def stockKey (r : SRow) : WithBot ℚ :=
  match r.Stock with
  | some (JNum.num q) => (q : WithBot ℚ)
  | some JNum.nan => ⊥
  | none => ⊥

/-- Sort key 3: Date.parse of so_date_parsed, plus infinity when the field
is missing or empty; none models a NaN parse result. -/
def soDateVal (parseMs : String → Option ℚ) (r : SRow) : Option (WithTop ℚ) :=
  match r.so_date_parsed with
  | none => some ⊤
  | some s =>
    if s = "" then some ⊤
    else (parseMs s).map (fun q => (q : WithTop ℚ))

/-- The comparator of the sort stage, as the sign of the source's numeric
returns; a NaN comparison leaves relative order untouched in a stable
engine sort and is modelled as eq. -/
def rowCompare (parseMs : String → Option ℚ) (a b : SRow) : Ordering :=
  if qtyKey a ≠ qtyKey b then (if qtyKey b < qtyKey a then .lt else .gt)
  else if stockKey a ≠ stockKey b then (if stockKey b < stockKey a then .lt else .gt)
  else
    match soDateVal parseMs a, soDateVal parseMs b with
    | some x, some y => if x < y then .lt else if x = y then .eq else .gt
    | _, _ => .eq

/-- The sort stage. -/
def sortStage (parseMs : String → Option ℚ) (rows : List SRow) : List SRow :=
  insertionSortBy (fun a b => !(rowCompare parseMs a b == Ordering.gt)) rows

/-- The zero-stock filter of the reconciler: non-numbers are kept, exact
zero is dropped, NaN is dropped. -/
def stockKeep (st : Option JNum) : Bool :=
  match st with
  | none => true
  | some (JNum.num q) => decide (q ≠ 0)
  | some JNum.nan => false

/-- The zero-stock filter stage. -/
def stockFilterStage (rows : List SRow) : List SRow :=
  rows.filter (fun r => stockKeep r.Stock)

/-- The customer/item multi-select filter (AND semantics; each dimension
only filters when non-empty). -/
def custItemFilterStage (customers items : List String) (rows : List SRow) : List SRow :=
  let selCust := customers.map (fun c => normalizeCustomerForCompare (some c))
  let selItems := items.map (fun i => normalizeItemForCompare (some i))
  rows.filter (fun r =>
    (selCust.isEmpty || selCust.contains (normalizeCustomerForCompare r.Customer)) &&
    (selItems.isEmpty || selItems.contains (normalizeItemForCompare r.Item)))

/-- Everything one reconciliation cycle fetched before its pure tail runs. -/
structure ReconcileInput where
  incoming : List SRow := []
  serverTotal : Int := 0
  dispatchedKeys : List String := []
  verifyRows : List JRow := []
  originPendingKeys : List String := []
  invMap : List (String × String) := []
  stockRows : List StockRec := []
  customers : List String := []
  items : List String := []

/-- The pure tail of load: annotate, exclude dispatched, pending and
optimistically-pending keys, apply the invoice rule, resolve stock for the
surviving rows, sort, drop zero/NaN stock, then the multi-select filter. -/
def reconcileRows (parseIso : String → Option String) (parseMs : String → Option ℚ)
    (inp : ReconcileInput) : List SRow :=
  let dNorm := dispatchedNorm inp.dispatchedKeys
  let pend := localPendingSet inp.verifyRows
  let vmap := verifyMapOf inp.verifyRows
  let r1 := annotateRows pend vmap inp.incoming
  let r2 := dispatchFilterStage dNorm r1
  let r3 := pendingFilterStage pend r2
  let r4 := originPendingFilterStage inp.originPendingKeys r3
  let r5 := invoiceFilterStage parseIso inp.invMap r4
  let r6 := stockAssignStage inp.stockRows r5
  let r7 := sortStage parseMs r6
  let r8 := stockFilterStage r7
  custItemFilterStage inp.customers inp.items r8

/-- computedTotal of load: the server total less the rows removed
client-side, clamped to zero at both subtractions. -/
def computedTotal (serverTotal : Int) (incomingLen finalLen : Nat) : Int :=
  max 0 (serverTotal - max 0 ((incomingLen : Int) - (finalLen : Int)))

/-- The total a successful cycle reports. -/
def reconcileTotal (parseIso : String → Option String) (parseMs : String → Option ℚ)
    (inp : ReconcileInput) : Int :=
  computedTotal inp.serverTotal inp.incoming.length (reconcileRows parseIso parseMs inp).length

/-! ## Cross-tab verified:confirmed handler -/

/-- The carried row of a verified:confirmed event (loosely typed fields). -/
structure BMsg where
  SO_No : Option JVal := none
  Customer : Option JVal := none
  Item : Option JVal := none
  Color : Option JVal := none
  New_Color : Option JVal := none
  Size : Option JVal := none
  OrderQty : Option JVal := none
  SO_Date : Option JVal := none
deriving DecidableEq, Repr

/-- String(x ?? "") of a carried field. -/
def jstrOf (v : Option JVal) : String :=
  match v with
  | none => ""
  | some .jnull => ""
  | some w => jsToStringJ w

/-- Truthiness of a carried field. -/
def truthyOpt (v : Option JVal) : Bool :=
  match v with
  | none => false
  | some w => jsTruthy w

/-- The composite key the handler computes from the carried row. -/
def bmsgKey (m : BMsg) : String :=
  jsUpperStr (makeDispatchKey (some (jstrOf m.SO_No)) (some (jstrOf m.Customer))
    (some (jstrOf m.Item)) (some (jstrOf m.Color)))

/-- The strongly typed row the handler builds from the carried record.  For
the four identity fields the truthy branch String(v) and the fallback
String(v ?? "") agree, so both reduce to jstrOf.  A non-numeric carried
OrderQty fails the finiteness check and becomes undefined. -/
def newRowOf (m : BMsg) (uid : String) : SRow :=
  { SO_No := some (jstrOf m.SO_No)
    Customer := some (jstrOf m.Customer)
    Item := some (jstrOf m.Item)
    Color := some (jstrOf m.Color)
    New_Color :=
      match m.New_Color with
      | none => none
      | some .jnull => none
      | some v => some (jsToStringJ v)
    Size :=
      match m.Size with
      | none => none
      | some .jnull => none
      | some v => some (jsToStringJ v)
    OrderQty :=
      match m.OrderQty with
      | some (JVal.jnum n) => some ((n : Int) : ℚ)
      | _ => none
    SO_Date :=
      match m.SO_Date with
      | none => none
      | some .jnull => none
      | some v => some (jsToStringJ v)
    uid := uid }

/-- The component state the broadcast handler can touch. -/
structure BState where
  rows : List SRow := []
  pendingSet : List String := []
  pendingMap : List (String × SRow) := []
  selectedColors : List (String × String) := []
deriving DecidableEq, Repr

/-- The verified:confirmed handler: drop the key from the pending set and
map, prepend the carried row unless a visible row already has the key, and
record a carried replacement color. -/
def broadcastVerifiedConfirmed (st : BState) (m : BMsg) (uid : String) : BState :=
  let key := bmsgKey m
  { rows :=
      if st.rows.any (fun r => rowKeyUpper r == key) then st.rows
      else newRowOf m uid :: st.rows
    pendingSet := st.pendingSet.filter (fun k => !(k == key))
    pendingMap := st.pendingMap.filter (fun e => !(e.1 == key))
    selectedColors :=
      if truthyOpt m.New_Color then
        setAssocG st.selectedColors key (jsToStringJ (m.New_Color.getD JVal.jnull))
      else st.selectedColors }

/-! ## The load cycle as a step program (cancellation behavior) -/

/-- The network round-trips of one cycle, in program order. -/
inductive FetchPoint
  | dispatchedKeys
  | verifyList
  | ordersQuery
  | invoiceDetails
  | stockBatch
deriving DecidableEq, Repr

/-- What the surrounding handler does when a signal-bound await rejects with
AbortError: return from load, or swallow and continue. -/
inductive AbortBehavior
  | returnEarly
  | swallow
deriving DecidableEq, Repr

/-- The claim-relevant state stores load can write. -/
inductive SetterEv
  | sDispatchedSet
  | sPendingSet
  | sInvoiceMap
  | sRows
  | sTotal
deriving DecidableEq, Repr

/-- One step of load: an awaited fetch (with or without the cancellation
signal) or a state-setter call. -/
inductive LoadStep
  | awaitFetch (fp : FetchPoint) (usesSignal : Bool) (onAbort : AbortBehavior)
  | fire (ev : SetterEv)
deriving DecidableEq, Repr

/-- The happy-path body of load, step by step: the dispatched-keys fetch
(signal-bound, abort returns), setDispatchedSet, the verify fetch
(signal-bound, abort returns), setPendingSet, the orders fetch
(signal-bound, abort returns via the outer catch), the invoice fetch
(signal-bound, but its catch swallows AbortError and continues with an
empty map), setInvoiceMap, the stock batch (issued without the signal),
setRows, setTotal. -/
def loadProgram : List LoadStep :=
  [ .awaitFetch .dispatchedKeys true .returnEarly,
    .fire .sDispatchedSet,
    .awaitFetch .verifyList true .returnEarly,
    .fire .sPendingSet,
    .awaitFetch .ordersQuery true .returnEarly,
    .awaitFetch .invoiceDetails true .swallow,
    .fire .sInvoiceMap,
    .awaitFetch .stockBatch false .swallow,
    .fire .sRows,
    .fire .sTotal ]

/-- Execute the step program given the point (if any) at which the
controller aborts: an abort is observed only by signal-bound awaits, from
the abort point onward. -/
def runLoad : List LoadStep → Bool → Option FetchPoint → List SetterEv
  | [], _, _ => []
  | .fire ev :: rest, aborted, pt => ev :: runLoad rest aborted pt
  | .awaitFetch fp sig beh :: rest, aborted, pt =>
    let aborted' := aborted || pt == some fp
    if aborted' && sig then
      match beh with
      | .returnEarly => []
      | .swallow => runLoad rest aborted' pt
    else runLoad rest aborted' pt

/-- The setters a cycle fires when the controller aborts at a given point
(none for a cycle that runs to completion). -/
def cycleSetters (abortAt : Option FetchPoint) : List SetterEv :=
  runLoad loadProgram false abortAt

/-! ## Request-verification handler -/

/-- The component state handleVerifySelected can touch. -/
structure VState where
  rows : List SRow := []
  pendingSet : List String := []
  pendingMap : List (String × SRow) := []
  selectedColors : List (String × String) := []
  checked : List (String × Bool) := []
  total : Int := 0
deriving DecidableEq, Repr

/-- The uids whose checkbox is on. -/
def selectedUids (checked : List (String × Bool)) : List String :=
  (checked.filter (fun e => e.2)).map Prod.fst

/-- A row participates when its checkbox is on or a replacement color is
selected for its key (Boolean of the entry: an empty string is falsy). -/
def rowSelected (st : VState) (r : SRow) : Bool :=
  let hasSelectedColor :=
    match st.selectedColors.lookup (rowKeyUpper r) with
    | some c => !(c == "")
    | none => false
  (selectedUids st.checked).contains r.uid || hasSelectedColor

/-- The rows the handler would submit. -/
def rowsToSendOf (st : VState) : List SRow := st.rows.filter (rowSelected st)

/-- The composite keys of the submitted rows; the outgoing projection
stringifies the identity fields in a way normalizeFieldForKey cannot
distinguish from the originals. -/
def keysToAddOf (st : VState) : List String := (rowsToSendOf st).map rowKeyUpper

/-- The optimistic state transition after a 2xx response: remember the
submitted rows in the pending map, add their keys to the pending set
(modelled as a membership list), strip them from the visible rows, clear
their color selections and every checkbox, decrement the clamped total.
The source drops a verified_at property from the remembered row; the
modelled rows carry none. -/
def applyVerifySuccess (st : VState) : VState :=
  let keys := keysToAddOf st
  { rows := st.rows.filter (fun r => !(keys.contains (rowKeyUpper r)))
    pendingSet := st.pendingSet ++ keys
    pendingMap :=
      keys.foldl (fun pm key =>
        match st.rows.find? (fun r => rowKeyUpper r == key) with
        | none => pm
        | some original => setAssocG pm key original) st.pendingMap
    selectedColors := st.selectedColors.filter (fun e => !(keys.contains e.1))
    checked := []
    total := max 0 (st.total - (rowsToSendOf st).length) }

/-- How the submission ended. -/
inductive VerifyOutcome
  | ok
  | httpError
  | threw
deriving DecidableEq, Repr

/-- handleVerifySelected: nothing to send is a no-op; a non-2xx response
logs and returns before any state change; a thrown request is caught and
logged; only a 2xx response mutates state. -/
def handleVerifySelected (st : VState) (outcome : VerifyOutcome) : VState :=
  if (rowsToSendOf st).isEmpty then st
  else
    match outcome with
    | .ok => applyVerifySuccess st
    | .httpError => st
    | .threw => st

/-! ## The displayed total -/

/-- Every write to the displayed total.  The table component writes it on a
successful cycle (the computed total), on a failed cycle (zero), and after
the verify-request and save-dispatched actions (clamped decrements).  The
useSalesOrders hook's own live-load effect also writes the same state: a
non-ok response zeroes it, and a successful response writes the
server-reported total — or, when Number(data.total) is not finite
(modelled as none), the incoming row count — without any clamp. -/
inductive TotalOp
  | loadSuccess (serverTotal : Int) (incomingLen finalLen : Nat)
  | loadFailed
  | verifyRequest (n : Nat)
  | saveDispatched (n : Nat)
  | hookLoadSuccess (dataTotal : Option Int) (incomingLen : Nat)
  | hookLoadFailed
deriving DecidableEq, Repr

/-- The new total after one operation. -/
def applyTotalOp (t : Int) (op : TotalOp) : Int :=
  match op with
  | .loadSuccess s i f => computedTotal s i f
  | .loadFailed => 0
  | .verifyRequest n => max 0 (t - (n : Int))
  | .saveDispatched n => max 0 (t - (n : Int))
  | .hookLoadSuccess dataTotal incomingLen => dataTotal.getD (incomingLen : Int)
  | .hookLoadFailed => 0

/-- useState(0) in useSalesOrders. -/
def initialTotal : Int := 0

/-! ## Specification-side predicates used by the theorems -/

/-- No suffix of the list matches the bracket regex: scanning can delete
nothing. -/
def clean (l : List Char) : Prop := ∀ t, t <:+ l → stripMatchAt? t = none

/-- The string contains no JS line terminator. -/
def noLineTerm (l : List Char) : Prop := ∀ c ∈ l, jsLineTerminator c = false

instance (l : List Char) : Decidable (noLineTerm l) := by
  unfold noLineTerm; infer_instance

/-- The date key of the visible-row sort once a row's date is known to
parse or be absent: missing and empty dates are plus infinity. -/
def dKey (parseMs : String → Option ℚ) (r : SRow) : WithTop ℚ :=
  (soDateVal parseMs r).getD ⊤

/-- The row's so_date_parsed field is empty, absent, or parseable (the
shape every server-produced row has: the field is a CAST of a DATE). -/
def wellDated (parseMs : String → Option ℚ) (r : SRow) : Prop :=
  (soDateVal parseMs r).isSome = true

/-- The claimed order of the finally-visible rows: order quantity
descending, then stock descending (unknown stock being bottom), then date
ascending (missing dates being top). -/
def visibleSortRel (parseMs : String → Option ℚ) (a b : SRow) : Prop :=
  qtyKey b < qtyKey a ∨
    (qtyKey a = qtyKey b ∧
      (stockKey b < stockKey a ∨
        (stockKey a = stockKey b ∧ dKey parseMs a ≤ dKey parseMs b)))

/-- The lexicographic key realizing the visible sort: quantity descending,
then stock descending, then date ascending. -/
def sortKey6 (parseMs : String → Option ℚ) (r : SRow) :
    Lex (ℚᵒᵈ × Lex ((WithBot ℚ)ᵒᵈ × WithTop ℚ)) :=
  toLex (OrderDual.toDual (qtyKey r),
    toLex (OrderDual.toDual (stockKey r), dKey parseMs r))

/-- The input records of one composite-key group, in input order. -/
def groupRows (rows : List JRow) (k : String) : List JRow :=
  rows.filter (fun r => rowGroupKey r == k)

/-- Invariant of the merge fold: the accumulated map has distinct keys,
exactly the keys of the processed records, and each accumulated record
agrees per-field with the first accepted value of its group so far (staying
replaceable while none has appeared), the completion timestamp with the
first record of the group that has one (staying timestamp-free while none
has appeared). -/
def MergeInv (processed : List JRow) (acc : List (String × JRow)) : Prop :=
  ((acc.map Prod.fst).Nodup) ∧
  (∀ k, k ∈ acc.map Prod.fst ↔ k ∈ processed.map rowGroupKey) ∧
  (∀ k e, (k, e) ∈ acc →
    propsNodup e ∧
    (∀ p, p ≠ "verified_at" → ∀ v,
      firstGoodVal (groupRows processed k) p = some v → getProp e p = some v) ∧
    (∀ p, p ≠ "verified_at" →
      firstGoodVal (groupRows processed k) p = none →
        replaceableVal (getProp e p) = true) ∧
    (∀ v, firstTimestampVal (groupRows processed k) = some v →
      getProp e "verified_at" = some v) ∧
    (firstTimestampVal (groupRows processed k) = none →
      hasTimestampJ (getProp e "verified_at") = false))

instance (parseMs : String → Option ℚ) (r : SRow) : Decidable (wellDated parseMs r) := by
  unfold wellDated
  infer_instance

instance (parseMs : String → Option ℚ) (a b : SRow) :
    Decidable (visibleSortRel parseMs a b) := by
  unfold visibleSortRel
  infer_instance

/-- A carried verified:confirmed record whose composite key is dispatched. -/
def bmsgCex : BMsg := { SO_No := some (JVal.jstr "A") }

/-- A trivial platform ISO-date parser for concrete runs. -/
def wIso : String → Option String := fun _ => none

/-- A trivial platform millisecond parser for concrete runs. -/
def wMs : String → Option ℚ := fun _ => none

/-- A concrete page row that survives the whole reconciliation pipeline. -/
def wRowB : SRow :=
  { SO_No := some "B", Customer := some "c", Item := some "it",
    Color := some "r", OrderQty := some 5 }

/-- A second concrete page row with a larger order quantity. -/
def wRowC : SRow :=
  { SO_No := some "C", Customer := some "c", Item := some "it2",
    Color := some "g", OrderQty := some 7 }

/-- wRowB as the annotation pass leaves it (uid 0, not pending). -/
def wRowOut : SRow := { wRowB with uid := "0" }

/-- A concrete cycle input: one page row, one dispatched key that does not
match it. -/
def wInp : ReconcileInput :=
  { incoming := [wRowB], serverTotal := 10, dispatchedKeys := ["a|||"] }

/-- A concrete cycle input with two rows for the sort claim. -/
def wInp6 : ReconcileInput := { incoming := [wRowB, wRowC], serverTotal := 2 }

/-- A concrete partial verification record (request-time shape). -/
def mergeR1 : JRow :=
  [("SO_No", JVal.jstr "s1"), ("Customer", JVal.jstr "Acme"), ("Item", JVal.jstr "it"),
   ("Color", JVal.jstr "RED"), ("New_Color", JVal.jnull), ("verified_at", JVal.jnull)]

/-- A later record for the same composite key carrying the replacement
color and the completion timestamp. -/
def mergeR2 : JRow :=
  [("SO_No", JVal.jstr "S1 "), ("Customer", JVal.jstr "acme [Mumbai]"),
   ("Item", JVal.jstr "it"), ("Color", JVal.jstr "red"),
   ("New_Color", JVal.jstr "BLUE"), ("verified_at", JVal.jstr "2024-01-02")]

/-! # Theorems -/

/-! ## Character-class facts -/

theorem char_toNat_ofNat (n : Nat) (h : n < 55296) : (Char.ofNat n).toNat = n := by
  have hv : n.isValidChar := Or.inl h
  simp only [Char.ofNat, hv, Char.ofNatAux, Char.toNat, UInt32.ofNatCore, dif_pos]
  rfl

theorem jsToUpperChar_toNat (c : Char) :
    (jsToUpperChar c).toNat =
      if 97 ≤ c.toNat ∧ c.toNat ≤ 122 then c.toNat - 32 else c.toNat := by
  unfold jsToUpperChar
  split_ifs with h
  · exact char_toNat_ofNat _ (by omega)
  · rfl

theorem jsWhitespace_iff (c : Char) :
    jsWhitespace c = true ↔
      c.toNat = 9 ∨ c.toNat = 10 ∨ c.toNat = 11 ∨ c.toNat = 12 ∨
      c.toNat = 13 ∨ c.toNat = 32 ∨ c.toNat = 160 ∨ c.toNat = 65279 := by
  simp [jsWhitespace, or_assoc]

theorem jsLineTerminator_iff (c : Char) :
    jsLineTerminator c = true ↔
      c.toNat = 10 ∨ c.toNat = 13 ∨ c.toNat = 8232 ∨ c.toNat = 8233 := by
  simp [jsLineTerminator, or_assoc]

theorem jsToUpperChar_eq_self (c : Char) (h : ¬(97 ≤ c.toNat ∧ c.toNat ≤ 122)) :
    jsToUpperChar c = c := by
  unfold jsToUpperChar; rw [if_neg h]

theorem jsWhitespace_up (c : Char) : jsWhitespace (jsToUpperChar c) = jsWhitespace c := by
  by_cases h : 97 ≤ c.toNat ∧ c.toNat ≤ 122
  · have h1 : (jsToUpperChar c).toNat = c.toNat - 32 := by
      rw [jsToUpperChar_toNat, if_pos h]
    have e1 : jsWhitespace (jsToUpperChar c) = false := by
      rw [Bool.eq_false_iff]
      intro hw
      rw [jsWhitespace_iff, h1] at hw
      omega
    have e2 : jsWhitespace c = false := by
      rw [Bool.eq_false_iff]
      intro hw
      rw [jsWhitespace_iff] at hw
      omega
    rw [e1, e2]
  · rw [jsToUpperChar_eq_self c h]

theorem jsLineTerminator_up (c : Char) :
    jsLineTerminator (jsToUpperChar c) = jsLineTerminator c := by
  by_cases h : 97 ≤ c.toNat ∧ c.toNat ≤ 122
  · have h1 : (jsToUpperChar c).toNat = c.toNat - 32 := by
      rw [jsToUpperChar_toNat, if_pos h]
    have e1 : jsLineTerminator (jsToUpperChar c) = false := by
      rw [Bool.eq_false_iff]
      intro hw
      rw [jsLineTerminator_iff, h1] at hw
      omega
    have e2 : jsLineTerminator c = false := by
      rw [Bool.eq_false_iff]
      intro hw
      rw [jsLineTerminator_iff] at hw
      omega
    rw [e1, e2]
  · rw [jsToUpperChar_eq_self c h]

theorem jsToUpperChar_toNat_eq_iff (c : Char) {m : Nat} (hm : ¬(65 ≤ m ∧ m ≤ 90))
    (hm2 : ¬(97 ≤ m ∧ m ≤ 122)) : (jsToUpperChar c).toNat = m ↔ c.toNat = m := by
  rw [jsToUpperChar_toNat]
  split_ifs with h
  · constructor <;> (intro h2; omega)
  · exact Iff.rfl

theorem jsToUpperChar_idem (c : Char) : jsToUpperChar (jsToUpperChar c) = jsToUpperChar c := by
  by_cases h : 97 ≤ c.toNat ∧ c.toNat ≤ 122
  · have h1 : (jsToUpperChar c).toNat = c.toNat - 32 := by
      rw [jsToUpperChar_toNat, if_pos h]
    apply jsToUpperChar_eq_self
    rw [h1]
    omega
  · rw [jsToUpperChar_eq_self c h, jsToUpperChar_eq_self c h]

theorem map_up_idem (l : List Char) :
    (l.map jsToUpperChar).map jsToUpperChar = l.map jsToUpperChar := by
  rw [List.map_map]
  exact List.map_congr_left (fun c _ => jsToUpperChar_idem c)

/-! ## The bracket-stripping scanner -/

theorem bracketClose?_isSuffix :
    ∀ {l r : List Char}, bracketClose? l = some r → r <:+ l := by
  intro l
  induction l with
  | nil => intro r h; simp [bracketClose?] at h
  | cons c rest ih =>
    intro r h
    unfold bracketClose? at h
    split_ifs at h with h1 h2
    · cases h; exact List.suffix_cons c rest
    · exact (ih h).trans (List.suffix_cons c rest)

theorem bracketClose?_length :
    ∀ {l r : List Char}, bracketClose? l = some r → r.length < l.length := by
  intro l
  induction l with
  | nil => intro r h; simp [bracketClose?] at h
  | cons c rest ih =>
    intro r h
    unfold bracketClose? at h
    split_ifs at h with h1 h2
    · cases h; simp
    · exact Nat.lt_trans (ih h) (by simp)

theorem stripMatchAt?_dw_nil {l : List Char} (hd : l.dropWhile jsWhitespace = []) :
    stripMatchAt? l = none := by
  unfold stripMatchAt?
  rw [hd]

theorem stripMatchAt?_dw_cons {l after : List Char} {c : Char}
    (hd : l.dropWhile jsWhitespace = c :: after) :
    stripMatchAt? l = if c.toNat = 91 then bracketClose? after else none := by
  unfold stripMatchAt?
  rw [hd]

theorem stripMatchAt?_isSuffix {l r : List Char} (h : stripMatchAt? l = some r) : r <:+ l := by
  rcases hd : l.dropWhile jsWhitespace with _ | ⟨c, after⟩
  · rw [stripMatchAt?_dw_nil hd] at h; exact absurd h (by simp)
  · rw [stripMatchAt?_dw_cons hd] at h
    split_ifs at h with h1
    have h2 : r <:+ after := bracketClose?_isSuffix h
    have h3 : after <:+ c :: after := List.suffix_cons c after
    have h4 : (c :: after) <:+ l := hd ▸ List.dropWhile_suffix jsWhitespace
    exact (h2.trans h3).trans h4

theorem stripMatchAt?_length {l r : List Char} (h : stripMatchAt? l = some r) :
    r.length < l.length := by
  rcases hd : l.dropWhile jsWhitespace with _ | ⟨c, after⟩
  · rw [stripMatchAt?_dw_nil hd] at h; exact absurd h (by simp)
  · rw [stripMatchAt?_dw_cons hd] at h
    split_ifs at h with h1
    have h2 : r.length < after.length := bracketClose?_length h
    have h4 : (c :: after) <:+ l := hd ▸ List.dropWhile_suffix jsWhitespace
    have h5 : (c :: after).length ≤ l.length := h4.length_le
    simp at h5
    omega

theorem stripGo_fuel :
    ∀ (n : Nat) (l : List Char) (f₁ f₂ : Nat), l.length ≤ n → l.length ≤ f₁ → l.length ≤ f₂ →
      stripGo f₁ l = stripGo f₂ l := by
  intro n
  induction n with
  | zero =>
    intro l f₁ f₂ hn _ _
    have : l = [] := by
      cases l with
      | nil => rfl
      | cons c rest => simp at hn
    subst this
    cases f₁ <;> cases f₂ <;> rfl
  | succ n ih =>
    intro l f₁ f₂ hn h1 h2
    cases l with
    | nil => cases f₁ <;> cases f₂ <;> rfl
    | cons c rest =>
      simp only [List.length_cons] at hn h1 h2
      obtain ⟨g₁, rfl⟩ : ∃ g, f₁ = g + 1 := ⟨f₁ - 1, by omega⟩
      obtain ⟨g₂, rfl⟩ : ∃ g, f₂ = g + 1 := ⟨f₂ - 1, by omega⟩
      rcases hm : stripMatchAt? (c :: rest) with _ | rem
      · simp only [stripGo, hm]
        rw [ih rest g₁ g₂ (by omega) (by omega) (by omega)]
      · have hlt : rem.length < rest.length + 1 := stripMatchAt?_length hm
        simp only [stripGo, hm]
        exact ih rem g₁ g₂ (by omega) (by omega) (by omega)

theorem stripBrackets_cons_some {c : Char} {rest rem : List Char}
    (h : stripMatchAt? (c :: rest) = some rem) :
    stripBrackets (c :: rest) = stripBrackets rem := by
  have hlt : rem.length < rest.length + 1 := by
    have := stripMatchAt?_length h; simpa using this
  unfold stripBrackets
  show stripGo (rest.length + 1) (c :: rest) = _
  simp only [stripGo, h]
  exact stripGo_fuel rest.length rem rest.length rem.length (by omega) (by omega) le_rfl

theorem stripBrackets_cons_none {c : Char} {rest : List Char}
    (h : stripMatchAt? (c :: rest) = none) :
    stripBrackets (c :: rest) = c :: stripBrackets rest := by
  unfold stripBrackets
  show stripGo (rest.length + 1) (c :: rest) = _
  simp only [stripGo, h]

theorem mem_stripBrackets :
    ∀ (n : Nat) (l : List Char), l.length ≤ n → ∀ x ∈ stripBrackets l, x ∈ l := by
  intro n
  induction n with
  | zero =>
    intro l hn x hx
    have : l = [] := by
      cases l with
      | nil => rfl
      | cons c rest => simp at hn
    subst this
    simp [stripBrackets, stripGo] at hx
  | succ n ih =>
    intro l hn x hx
    cases l with
    | nil => simp [stripBrackets, stripGo] at hx
    | cons c rest =>
      simp only [List.length_cons] at hn
      rcases hm : stripMatchAt? (c :: rest) with _ | rem
      · rw [stripBrackets_cons_none hm] at hx
        rw [List.mem_cons] at hx ⊢
        rcases hx with rfl | hx
        · exact Or.inl rfl
        · exact Or.inr (ih rest (by omega) x hx)
      · rw [stripBrackets_cons_some hm] at hx
        have hlen : rem.length ≤ n := by
          have := stripMatchAt?_length hm; simp at this; omega
        exact (stripMatchAt?_isSuffix hm).subset (ih rem hlen x hx)

/-! ## Clean strings are fixed points of the scanner -/

theorem clean_nil : clean [] := by
  intro t ht
  have : t = [] := by simpa using ht
  subst this
  rfl

theorem clean_of_suffix {t l : List Char} (h : t <:+ l) (hc : clean l) : clean t :=
  fun u hu => hc u (hu.trans h)

theorem clean_cons {c : Char} {l : List Char}
    (h0 : stripMatchAt? (c :: l) = none) (h1 : clean l) : clean (c :: l) := by
  intro t ht
  rcases List.suffix_cons_iff.mp ht with rfl | ht'
  · exact h0
  · exact h1 t ht'

theorem stripBrackets_of_clean : ∀ (n : Nat) (l : List Char), l.length ≤ n → clean l →
    stripBrackets l = l := by
  intro n
  induction n with
  | zero =>
    intro l hn _
    have : l = [] := by
      cases l with
      | nil => rfl
      | cons c rest => simp at hn
    subst this
    rfl
  | succ n ih =>
    intro l hn hc
    cases l with
    | nil => rfl
    | cons c rest =>
      simp only [List.length_cons] at hn
      have h0 : stripMatchAt? (c :: rest) = none := hc _ (List.suffix_refl _)
      rw [stripBrackets_cons_none h0]
      rw [ih rest (by omega) (clean_of_suffix (List.suffix_cons c rest) hc)]

theorem stripMatchAt?_cons_ws {c : Char} {l : List Char} (h : jsWhitespace c = true) :
    stripMatchAt? (c :: l) = stripMatchAt? l := by
  unfold stripMatchAt?
  rw [List.dropWhile_cons, if_pos h]

theorem bracketClose?_eq_none_of_not93 {l : List Char} (h : ∀ x ∈ l, x.toNat ≠ 93) :
    bracketClose? l = none := by
  induction l with
  | nil => rfl
  | cons c rest ih =>
    unfold bracketClose?
    rw [if_neg (h c (List.mem_cons_self c rest))]
    split_ifs with h2
    · rfl
    · exact ih (fun x hx => h x (List.mem_cons_of_mem c hx))

theorem not93_of_bracketClose?_none {l : List Char}
    (hlt : ∀ c ∈ l, jsLineTerminator c = false) (h : bracketClose? l = none) :
    ∀ x ∈ l, x.toNat ≠ 93 := by
  induction l with
  | nil => intro x hx; simp at hx
  | cons c rest ih =>
    intro x hx
    unfold bracketClose? at h
    split_ifs at h with h1 h2
    · rw [hlt c (List.mem_cons_self c rest)] at h2
      exact absurd h2 (by simp)
    · rcases List.mem_cons.mp hx with rfl | hx'
      · exact h1
      · exact ih (fun d hd => hlt d (List.mem_cons_of_mem c hd)) h x hx'

theorem clean_stripBrackets : ∀ (n : Nat) (l : List Char), l.length ≤ n →
    noLineTerm l → clean (stripBrackets l) := by
  intro n
  induction n with
  | zero =>
    intro l hn _
    have : l = [] := by
      cases l with
      | nil => rfl
      | cons c rest => simp at hn
    subst this
    exact clean_nil
  | succ n ih =>
    intro l hn hnl
    cases l with
    | nil => exact clean_nil
    | cons c rest =>
      simp only [List.length_cons] at hn
      rcases hm : stripMatchAt? (c :: rest) with _ | rem
      · rw [stripBrackets_cons_none hm]
        have hrest : clean (stripBrackets rest) :=
          ih rest (by omega) (fun d hd => hnl d (List.mem_cons_of_mem c hd))
        apply clean_cons _ hrest
        by_cases hws : jsWhitespace c = true
        · rw [stripMatchAt?_cons_ws hws]
          exact hrest _ (List.suffix_refl _)
        · have hws' : jsWhitespace c = false := by
            cases hcb : jsWhitespace c
            · rfl
            · exact absurd hcb hws
          have hd : (c :: stripBrackets rest).dropWhile jsWhitespace =
              c :: stripBrackets rest := by
            rw [List.dropWhile_cons, if_neg (by rw [hws']; simp)]
          rw [stripMatchAt?_dw_cons hd]
          split_ifs with h91
          · -- an opening bracket whose group never closed: no ']' afterwards
            have hd0 : (c :: rest).dropWhile jsWhitespace = c :: rest := by
              rw [List.dropWhile_cons, if_neg (by rw [hws']; simp)]
            rw [stripMatchAt?_dw_cons hd0, if_pos h91] at hm
            have hno : ∀ x ∈ rest, x.toNat ≠ 93 :=
              not93_of_bracketClose?_none
                (fun d hd => hnl d (List.mem_cons_of_mem c hd)) hm
            exact bracketClose?_eq_none_of_not93
              (fun x hx => hno x (mem_stripBrackets rest.length rest le_rfl x hx))
          · rfl
      · rw [stripBrackets_cons_some hm]
        have hlen : rem.length ≤ n := by
          have := stripMatchAt?_length hm; simp at this; omega
        exact ih rem hlen
          (fun d hd => hnl d ((stripMatchAt?_isSuffix hm).subset hd))

/-! ## Upper-casing commutes with the scanner -/

theorem bracketClose?_map_up (l : List Char) :
    bracketClose? (l.map jsToUpperChar) = (bracketClose? l).map (List.map jsToUpperChar) := by
  induction l with
  | nil => rfl
  | cons c rest ih =>
    simp only [List.map_cons]
    unfold bracketClose?
    by_cases h93 : c.toNat = 93
    · rw [if_pos ((jsToUpperChar_toNat_eq_iff c (by omega) (by omega)).mpr h93), if_pos h93]
      rfl
    · rw [if_neg (fun h => h93 ((jsToUpperChar_toNat_eq_iff c (by omega) (by omega)).mp h)),
        if_neg h93, jsLineTerminator_up]
      split_ifs with hlt
      · rfl
      · exact ih

theorem dropWhile_ws_map_up (l : List Char) :
    (l.map jsToUpperChar).dropWhile jsWhitespace =
      (l.dropWhile jsWhitespace).map jsToUpperChar := by
  rw [List.dropWhile_map]
  have hfe : (jsWhitespace ∘ jsToUpperChar) = jsWhitespace := funext jsWhitespace_up
  rw [hfe]

theorem stripMatchAt?_map_up (l : List Char) :
    stripMatchAt? (l.map jsToUpperChar) = (stripMatchAt? l).map (List.map jsToUpperChar) := by
  rcases hd : l.dropWhile jsWhitespace with _ | ⟨c, after⟩
  · have hd2 : (l.map jsToUpperChar).dropWhile jsWhitespace = [] := by
      rw [dropWhile_ws_map_up, hd]; rfl
    rw [stripMatchAt?_dw_nil hd, stripMatchAt?_dw_nil hd2]
    rfl
  · have hd2 : (l.map jsToUpperChar).dropWhile jsWhitespace =
        jsToUpperChar c :: after.map jsToUpperChar := by
      rw [dropWhile_ws_map_up, hd]; rfl
    rw [stripMatchAt?_dw_cons hd, stripMatchAt?_dw_cons hd2]
    by_cases h91 : c.toNat = 91
    · rw [if_pos ((jsToUpperChar_toNat_eq_iff c (by omega) (by omega)).mpr h91), if_pos h91,
        bracketClose?_map_up]
    · rw [if_neg (fun h => h91 ((jsToUpperChar_toNat_eq_iff c (by omega) (by omega)).mp h)),
        if_neg h91]
      rfl

theorem clean_map_up {l : List Char} (hc : clean l) : clean (l.map jsToUpperChar) := by
  intro t ht
  obtain ⟨u, hu⟩ := ht
  obtain ⟨l₁, l₂, rfl, _, hm2⟩ := List.map_eq_append_iff.mp hu.symm
  have hsuf : l₂ <:+ l₁ ++ l₂ := ⟨l₁, rfl⟩
  rw [← hm2, stripMatchAt?_map_up l₂, hc l₂ hsuf]
  rfl

/-! ## Trimming -/

theorem dropWhile_head_false {α : Type} {p : α → Bool} :
    ∀ {l rest : List α} {c : α}, l.dropWhile p = c :: rest → p c = false := by
  intro l
  induction l with
  | nil => intro rest c h; simp at h
  | cons a l' ih =>
    intro rest c h
    rw [List.dropWhile_cons] at h
    split_ifs at h with ha
    · exact ih h
    · rcases List.cons.inj h with ⟨rfl, rfl⟩
      exact Bool.eq_false_iff.mpr ha

theorem dropWhile_eq_self_of_head {α : Type} {p : α → Bool} {l : List α}
    (h : ∀ c rest, l = c :: rest → p c = false) : l.dropWhile p = l := by
  cases l with
  | nil => rfl
  | cons c rest =>
    rw [List.dropWhile_cons, if_neg]
    rw [h c rest rfl]
    simp

theorem jsTrimList_decomp (l : List Char) :
    ∃ w, l.dropWhile jsWhitespace = jsTrimList l ++ w ∧ ∀ x ∈ w, jsWhitespace x = true := by
  refine ⟨((l.dropWhile jsWhitespace).reverse.takeWhile jsWhitespace).reverse, ?_, ?_⟩
  · unfold jsTrimList
    conv =>
      lhs
      rw [← List.reverse_reverse (l.dropWhile jsWhitespace),
        ← List.takeWhile_append_dropWhile jsWhitespace (l.dropWhile jsWhitespace).reverse]
    rw [List.reverse_append]
  · intro x hx
    rw [List.mem_reverse] at hx
    exact List.mem_takeWhile_imp hx

theorem jsTrimList_dropWhile_self (l : List Char) :
    (jsTrimList l).dropWhile jsWhitespace = jsTrimList l := by
  apply dropWhile_eq_self_of_head
  intro c rest hB
  obtain ⟨w, hw, _⟩ := jsTrimList_decomp l
  rw [hB] at hw
  exact dropWhile_head_false hw

theorem jsTrimList_reverse_dropWhile_self (l : List Char) :
    (jsTrimList l).reverse.dropWhile jsWhitespace = (jsTrimList l).reverse := by
  apply dropWhile_eq_self_of_head
  intro c rest hB
  have hrev : (jsTrimList l).reverse =
      ((l.dropWhile jsWhitespace).reverse).dropWhile jsWhitespace := by
    unfold jsTrimList
    rw [List.reverse_reverse]
  rw [hB] at hrev
  exact dropWhile_head_false hrev.symm

theorem jsTrimList_idem (l : List Char) : jsTrimList (jsTrimList l) = jsTrimList l := by
  show (((jsTrimList l).dropWhile jsWhitespace).reverse.dropWhile jsWhitespace).reverse = _
  rw [jsTrimList_dropWhile_self, jsTrimList_reverse_dropWhile_self, List.reverse_reverse]

theorem jsTrimList_map_up (l : List Char) :
    jsTrimList (l.map jsToUpperChar) = (jsTrimList l).map jsToUpperChar := by
  unfold jsTrimList
  rw [dropWhile_ws_map_up, ← List.map_reverse, dropWhile_ws_map_up, ← List.map_reverse]

theorem bracketClose?_append {l r w : List Char} (h : bracketClose? l = some r) :
    bracketClose? (l ++ w) = some (r ++ w) := by
  induction l with
  | nil => simp [bracketClose?] at h
  | cons c rest ih =>
    rw [List.cons_append]
    unfold bracketClose? at h ⊢
    split_ifs at h ⊢ with h1 h2
    · cases h; rfl
    · exact ih h

theorem stripMatchAt?_none_of_append {t w : List Char}
    (h : stripMatchAt? (t ++ w) = none) : stripMatchAt? t = none := by
  rcases hd : t.dropWhile jsWhitespace with _ | ⟨c, after⟩
  · exact stripMatchAt?_dw_nil hd
  · rw [stripMatchAt?_dw_cons hd]
    split_ifs with h91
    · rcases hb : bracketClose? after with _ | r
      · rfl
      · have hd2 : (t ++ w).dropWhile jsWhitespace = c :: (after ++ w) := by
          rw [List.dropWhile_append, hd]
          simp
        rw [stripMatchAt?_dw_cons hd2, if_pos h91, bracketClose?_append hb] at h
        exact absurd h (by simp)
    · rfl

theorem clean_jsTrimList {l : List Char} (hc : clean l) : clean (jsTrimList l) := by
  intro t ht
  obtain ⟨w, hw, _⟩ := jsTrimList_decomp l
  obtain ⟨u, hu⟩ := ht
  have hsuf : t ++ w <:+ l := by
    have h1 : jsTrimList l ++ w = u ++ (t ++ w) := by rw [← List.append_assoc, hu]
    have h2 : t ++ w <:+ jsTrimList l ++ w := ⟨u, h1.symm⟩
    exact h2.trans (hw ▸ List.dropWhile_suffix jsWhitespace)
  exact stripMatchAt?_none_of_append (hc (t ++ w) hsuf)

/-! ## Idempotence of the normalizer on line-terminator-free strings -/

theorem normalizeFieldForKey_data (s : String) :
    (normalizeFieldForKey (some s)).data =
      (jsTrimList (stripBrackets s.data)).map jsToUpperChar := rfl

theorem normalizeFieldForKey_idem_of_noLineTerm (s : String) (h : noLineTerm s.data) :
    normalizeFieldForKey (some (normalizeFieldForKey (some s))) =
      normalizeFieldForKey (some s) := by
  apply String.ext
  rw [normalizeFieldForKey_data, normalizeFieldForKey_data]
  have hX : clean (stripBrackets s.data) := clean_stripBrackets s.data.length s.data le_rfl h
  have hT : clean (jsTrimList (stripBrackets s.data)) := clean_jsTrimList hX
  have hN : clean ((jsTrimList (stripBrackets s.data)).map jsToUpperChar) := clean_map_up hT
  rw [stripBrackets_of_clean _ _ le_rfl hN]
  rw [jsTrimList_map_up, jsTrimList_idem, map_up_idem]

/-! ## Claim C8 -/

/-- C8, counterexample: normalizeField is not idempotent on every string.
Inside a bracket group the regex dot cannot cross a line terminator, so in
"[\n[a]]" only the inner group (with the preceding newline, swallowed by
the leading whitespace quantifier) is deleted; the leftover "[]" is a new
match for the second application. -/
theorem normalizeField_idem_counterexample :
    normalizeFieldForKey (some (normalizeFieldForKey (some "[\n[a]]"))) ≠
      normalizeFieldForKey (some "[\n[a]]") := by decide

/-- C8 (amended): normalizeField is idempotent on strings free of line
terminators (the failure needs a newline inside a bracket group), and it is
insensitive to a bracketed annotation, case, and surrounding whitespace:
normalizeField("Acme [Mumbai]") = normalizeField("acme"). -/
theorem normalizeField_idem_and_bracket_insensitive :
    (∀ s : String, noLineTerm s.data →
      normalizeFieldForKey (some (normalizeFieldForKey (some s))) =
        normalizeFieldForKey (some s)) ∧
    normalizeFieldForKey (some "Acme [Mumbai]") = normalizeFieldForKey (some "acme") :=
  ⟨normalizeFieldForKey_idem_of_noLineTerm, by decide⟩

/-- C8 witness: the amended theorem applied at a concrete string. -/
theorem normalizeField_idem_witness :
    normalizeFieldForKey (some (normalizeFieldForKey (some " Acme [Mumbai] "))) =
      normalizeFieldForKey (some " Acme [Mumbai] ") :=
  normalizeField_idem_and_bracket_insensitive.1 " Acme [Mumbai] " (by decide)

/-! ## Claim C9 -/

/-- Splitting at a separator character is unambiguous when neither left part
contains the separator. -/
theorem sep_split {sep : Char} :
    ∀ (a b u v : List Char), sep ∉ a → sep ∉ b → a ++ sep :: u = b ++ sep :: v →
      a = b ∧ u = v := by
  intro a
  induction a with
  | nil =>
    intro b u v _ hb h
    cases b with
    | nil => simpa using h
    | cons c b' =>
      rw [List.nil_append, List.cons_append] at h
      rcases List.cons.inj h with ⟨rfl, _⟩
      exact absurd (List.mem_cons_self _ _) hb
  | cons c a' ih =>
    intro b u v ha hb h
    cases b with
    | nil =>
      rw [List.cons_append, List.nil_append] at h
      rcases List.cons.inj h with ⟨rfl, _⟩
      exact absurd (List.mem_cons_self _ _) ha
    | cons d b' =>
      rw [List.cons_append, List.cons_append] at h
      rcases List.cons.inj h with ⟨rfl, h2⟩
      have ha' : sep ∉ a' := fun hm => ha (List.mem_cons_of_mem _ hm)
      have hb' : sep ∉ b' := fun hm => hb (List.mem_cons_of_mem _ hm)
      obtain ⟨rfl, rfl⟩ := ih b' u v ha' hb' h2
      exact ⟨rfl, rfl⟩

/-- C9, counterexample: the claimed iff fails.  A normalized field may
itself contain the pipe separator, so two tuples differing component-wise
can collide: ("a|b","c","","") and ("a","b|c","","") produce the same key
although their normalized customer fields differ. -/
theorem makeDispatchKey_injective_counterexample :
    makeDispatchKey (some "a|b") (some "c") (some "") (some "") =
      makeDispatchKey (some "a") (some "b|c") (some "") (some "") ∧
    normalizeFieldForKey (some "c") ≠ normalizeFieldForKey (some "b|c") := by decide

/-- C9 (amended): tuples equal component-wise after normalization always
give equal keys; and conversely, when no normalized field contains the pipe
separator, equal keys force component-wise equal normalized fields. -/
theorem makeDispatchKey_injective_on_pipe_free :
    (∀ so1 c1 i1 col1 so2 c2 i2 col2 : Option String,
      normalizeFieldForKey so1 = normalizeFieldForKey so2 →
      normalizeFieldForKey c1 = normalizeFieldForKey c2 →
      normalizeFieldForKey i1 = normalizeFieldForKey i2 →
      normalizeFieldForKey col1 = normalizeFieldForKey col2 →
      makeDispatchKey so1 c1 i1 col1 = makeDispatchKey so2 c2 i2 col2) ∧
    (∀ so1 c1 i1 col1 so2 c2 i2 col2 : Option String,
      (∀ f ∈ [so1, c1, i1, so2, c2, i2], '|' ∉ (normalizeFieldForKey f).data) →
      makeDispatchKey so1 c1 i1 col1 = makeDispatchKey so2 c2 i2 col2 →
      normalizeFieldForKey so1 = normalizeFieldForKey so2 ∧
      normalizeFieldForKey c1 = normalizeFieldForKey c2 ∧
      normalizeFieldForKey i1 = normalizeFieldForKey i2 ∧
      normalizeFieldForKey col1 = normalizeFieldForKey col2) := by
  constructor
  · intro so1 c1 i1 col1 so2 c2 i2 col2 h1 h2 h3 h4
    unfold makeDispatchKey
    rw [h1, h2, h3, h4]
  · intro so1 c1 i1 col1 so2 c2 i2 col2 hp h
    have hd : (makeDispatchKey so1 c1 i1 col1).data = (makeDispatchKey so2 c2 i2 col2).data := by
      rw [h]
    unfold makeDispatchKey at hd
    simp only [String.data_append] at hd
    simp only [List.append_assoc, List.singleton_append] at hd
    obtain ⟨e1, hd⟩ := sep_split _ _ _ _ (hp so1 (by simp)) (hp so2 (by simp)) hd
    obtain ⟨e2, hd⟩ := sep_split _ _ _ _ (hp c1 (by simp)) (hp c2 (by simp)) hd
    obtain ⟨e3, e4⟩ := sep_split _ _ _ _ (hp i1 (by simp)) (hp i2 (by simp)) hd
    exact ⟨String.ext e1, String.ext e2, String.ext e3,
      String.ext (by rw [e4])⟩

/-- C9 witness: the amended theorem applied at concrete pipe-free inputs. -/
theorem makeDispatchKey_injective_witness :
    normalizeFieldForKey (some "so1 ") = normalizeFieldForKey (some "SO1") ∧
    normalizeFieldForKey (some "Acme [Mumbai]") = normalizeFieldForKey (some "acme") ∧
    normalizeFieldForKey (some "itm") = normalizeFieldForKey (some "itm") ∧
    normalizeFieldForKey (some "red") = normalizeFieldForKey (some "RED") :=
  makeDispatchKey_injective_on_pipe_free.2 (some "so1 ") (some "Acme [Mumbai]") (some "itm")
    (some "red") (some "SO1") (some "acme") (some "itm") (some "RED")
    (by intro f hf; fin_cases hf <;> decide) (by decide)

/-! ## Sorting infrastructure -/

theorem mem_insertSorted {α : Type} (le : α → α → Bool) (x : α) :
    ∀ (l : List α) (z : α), z ∈ insertSorted le x l ↔ z = x ∨ z ∈ l := by
  intro l
  induction l with
  | nil => intro z; simp [insertSorted]
  | cons y rest ih =>
    intro z
    unfold insertSorted
    split_ifs with h
    · simp [or_comm, or_assoc, or_left_comm]
    · simp only [List.mem_cons, ih z]
      tauto

theorem mem_insertionSortBy {α : Type} (le : α → α → Bool) :
    ∀ (l : List α) (z : α), z ∈ insertionSortBy le l ↔ z ∈ l := by
  intro l
  induction l with
  | nil => intro z; exact Iff.rfl
  | cons x rest ih =>
    intro z
    show z ∈ insertSorted le x (insertionSortBy le rest) ↔ _
    rw [mem_insertSorted, ih z]
    simp

theorem pairwise_insertSorted {α : Type} (le : α → α → Bool) (S : List α)
    (total : ∀ a b, a ∈ S → b ∈ S → (le a b || le b a) = true)
    (trans : ∀ a b c, a ∈ S → b ∈ S → c ∈ S →
      le a b = true → le b c = true → le a c = true)
    (x : α) (hx : x ∈ S) :
    ∀ l, (∀ y ∈ l, y ∈ S) → List.Pairwise (fun a b => le a b = true) l →
      List.Pairwise (fun a b => le a b = true) (insertSorted le x l) := by
  intro l
  induction l with
  | nil => intro _ _; simp [insertSorted]
  | cons y rest ih =>
    intro hsub hp
    unfold insertSorted
    rcases hp with _ | ⟨hy, hrest⟩
    split_ifs with hxy
    · constructor
      · intro z hz
        rcases List.mem_cons.mp hz with rfl | hz'
        · exact hxy
        · exact trans x y z hx (hsub y (by simp)) (hsub z (by simp [hz']))
            hxy (hy z hz')
      · exact List.Pairwise.cons hy hrest
    · constructor
      · intro z hz
        rcases (mem_insertSorted le x rest z).mp hz with hzx | hz'
        · rw [hzx]
          have := total x y hx (hsub y (by simp))
          rcases Bool.or_eq_true_iff.mp this with h1 | h1
          · exact absurd h1 hxy
          · exact h1
        · exact hy z hz'
      · exact ih (fun z hz => hsub z (by simp [hz])) hrest

theorem pairwise_insertionSortBy {α : Type} (le : α → α → Bool) (S : List α)
    (total : ∀ a b, a ∈ S → b ∈ S → (le a b || le b a) = true)
    (trans : ∀ a b c, a ∈ S → b ∈ S → c ∈ S →
      le a b = true → le b c = true → le a c = true) :
    ∀ l, (∀ y ∈ l, y ∈ S) → List.Pairwise (fun a b => le a b = true) (insertionSortBy le l) := by
  intro l
  induction l with
  | nil => intro _; exact List.Pairwise.nil
  | cons x rest ih =>
    intro hsub
    show List.Pairwise _ (insertSorted le x (insertionSortBy le rest))
    apply pairwise_insertSorted le S total trans x (hsub x (by simp))
    · intro y hy
      exact hsub y (by simp [(mem_insertionSortBy le rest y).mp hy])
    · exact ih (fun y hy => hsub y (by simp [hy]))

/-! ## Claim C2 -/

theorem rowOrderLt_iff (a b : QRow) : rowOrderLt a b ↔ rowSortKey a < rowSortKey b := by
  unfold rowOrderLt rowSortKey
  rw [Prod.Lex.lt_iff, Prod.Lex.lt_iff]

theorem rowOrderLe_iff (a b : QRow) : rowOrderLe a b ↔ rowSortKey a ≤ rowSortKey b := by
  unfold rowOrderLe
  rw [rowOrderLt_iff]
  exact not_lt

theorem rowOrderLt_asymm {a b : QRow} (h : rowOrderLt a b) : ¬ rowOrderLt b a := by
  rw [rowOrderLt_iff] at h ⊢
  exact lt_asymm h

/-- C2: the ranking of the dedup window.  The rating tiers map to
priorities 1 to 4 with everything else 5; the ORDER BY triple orders by
priority, then parsed date with nulls last, then order number; within a
group the window keeps the row that is smaller under the triple; and the
final result set is ordered by the same triple. -/
theorem dedup_ranking_and_final_order :
    (ratingPriority (some "HIGH") = 1 ∧ ratingPriority (some "HIGH - CASH") = 2 ∧
      ratingPriority (some "CASH") = 3 ∧ ratingPriority (some "CASH - NEW CLIENT") = 4 ∧
      ratingPriority (some "PLATINUM") = 5 ∧ ratingPriority none = 5) ∧
    (∀ a b : QRow,
      (ratingPriority a.Rating < ratingPriority b.Rating → rowOrderLt a b) ∧
      (ratingPriority a.Rating = ratingPriority b.Rating →
        dateKey a < dateKey b → rowOrderLt a b) ∧
      (ratingPriority a.Rating = ratingPriority b.Rating → dateKey a = dateKey b →
        soKey a < soKey b → rowOrderLt a b)) ∧
    (∀ r : QRow, r.so_date_parsed = none → dateKey r = ⊤) ∧
    (∀ a b : QRow, sameDedupGroup a b → rowOrderLt a b → dedupKeepPair a b = a) ∧
    (∀ rows : List QRow, List.Pairwise rowOrderLe (finalOrder rows)) := by
  refine ⟨by decide, ?_, ?_, ?_, ?_⟩
  · intro a b
    refine ⟨fun h => Or.inl h, fun h1 h2 => Or.inr ⟨h1, Or.inl h2⟩,
      fun h1 h2 h3 => Or.inr ⟨h1, Or.inr ⟨h2, h3⟩⟩⟩
  · intro r h
    unfold dateKey
    rw [h]
  · intro a b _ h
    unfold dedupKeepPair
    rw [if_neg (rowOrderLt_asymm h)]
  · intro rows
    have hp := pairwise_insertionSortBy (fun a b => decide (rowOrderLe a b)) rows
      (fun a b _ _ => by
        rcases le_total (rowSortKey a) (rowSortKey b) with h | h
        · simp [decide_eq_true_eq, (rowOrderLe_iff a b).mpr h]
        · simp [decide_eq_true_eq, (rowOrderLe_iff b a).mpr h])
      (fun a b c _ _ _ h1 h2 => by
        rw [decide_eq_true_eq] at h1 h2 ⊢
        rw [rowOrderLe_iff] at h1 h2 ⊢
        exact le_trans h1 h2)
      rows (fun y hy => hy)
    exact hp.imp (fun h => of_decide_eq_true h)

/-- C2 witness: the theorem applied at concrete rows — a HIGH row beats a
CASH row of the same group; with equal priority the earlier date wins; with
equal priority and date the smaller order number sorts first; a concrete
final result set is ordered. -/
theorem dedup_ranking_witness :
    rowOrderLt
      { SO_No := some "S1", Item := some "itm", Color := some "RED",
        Rating := some "HIGH", so_date_parsed := some 20 }
      { SO_No := some "S1", Item := some "itm", Color := some "RED",
        Rating := some "CASH", so_date_parsed := some 10 } ∧
    dedupKeepPair
      { SO_No := some "S1", Item := some "itm", Color := some "RED",
        Rating := some "HIGH", so_date_parsed := some 20 }
      { SO_No := some "S1", Item := some "itm", Color := some "RED",
        Rating := some "CASH", so_date_parsed := some 10 } =
      { SO_No := some "S1", Item := some "itm", Color := some "RED",
        Rating := some "HIGH", so_date_parsed := some 20 } ∧
    rowOrderLt
      { SO_No := some "S2", Rating := some "CASH", so_date_parsed := some 3 }
      { SO_No := some "S3", Rating := some "CASH", so_date_parsed := some 7 } ∧
    rowOrderLt
      { SO_No := some "A1", Rating := some "CASH", so_date_parsed := some 3 }
      { SO_No := some "A2", Rating := some "CASH", so_date_parsed := some 3 } ∧
    List.Pairwise rowOrderLe (finalOrder
      [{ SO_No := some "S3", Rating := some "CASH", so_date_parsed := some 7 },
       { SO_No := some "S2", Rating := some "HIGH", so_date_parsed := some 9 }]) := by
  refine ⟨?_, ?_, ?_, ?_, dedup_ranking_and_final_order.2.2.2.2 _⟩
  · exact (dedup_ranking_and_final_order.2.1 _ _).1 (by decide)
  · exact dedup_ranking_and_final_order.2.2.2.1 _ _ (by decide)
      ((dedup_ranking_and_final_order.2.1 _ _).1 (by decide))
  · exact (dedup_ranking_and_final_order.2.1 _ _).2.1 (by decide) (by decide)
  · exact (dedup_ranking_and_final_order.2.1 _ _).2.2 (by decide) (by decide)
      (by rw [String.lt_iff_toList_lt]; decide)

/-! ## Claim C4: association-list record lemmas -/

theorem getProp_cons (q : String × JVal) (rest : JRow) (p : String) :
    getProp (q :: rest) p = if p = q.1 then some q.2 else getProp rest p := by
  rcases q with ⟨k, v⟩
  show List.lookup p ((k, v) :: rest) = _
  rw [List.lookup_cons]
  by_cases h : p = k
  · have hb : (p == k) = true := beq_iff_eq.mpr h
    rw [hb, if_pos h]
  · have hb : (p == k) = false := beq_eq_false_iff_ne.mpr h
    rw [hb, if_neg h]
    rfl

theorem getProp_eq_none_of_not_mem : ∀ {r : JRow} {p : String},
    p ∉ r.map Prod.fst → getProp r p = none := by
  intro r
  induction r with
  | nil => intro p _; rfl
  | cons q rest ih =>
    intro p h
    rw [getProp_cons, if_neg (fun hq => h (by simp [hq]))]
    exact ih (fun hm => h (by simp [hm]))

theorem getProp_setProp_self : ∀ (r : JRow) (p : String) (v : JVal),
    getProp (setProp r p v) p = some v := by
  intro r
  induction r with
  | nil => intro p v; simp [setProp, getProp_cons]
  | cons q rest ih =>
    intro p v
    unfold setProp
    split_ifs with h
    · rw [getProp_cons, if_pos rfl]
    · rw [getProp_cons, if_neg (fun hq => h hq.symm)]
      exact ih p v

theorem getProp_setProp_ne : ∀ (r : JRow) (p : String) (v : JVal) (q : String),
    q ≠ p → getProp (setProp r p v) q = getProp r q := by
  intro r
  induction r with
  | nil => intro p v q h; simp [setProp, getProp_cons, h, getProp]
  | cons e rest ih =>
    intro p v q h
    unfold setProp
    split_ifs with he
    · rw [getProp_cons, getProp_cons, if_neg h, if_neg (fun hq => h (hq.trans he))]
    · rw [getProp_cons, getProp_cons]
      by_cases hq : q = e.1
      · simp [hq]
      · simp [hq, ih p v q h]

theorem keys_setProp_subset : ∀ (r : JRow) (p : String) (v : JVal) (x : String),
    x ∈ (setProp r p v).map Prod.fst → x ∈ r.map Prod.fst ∨ x = p := by
  intro r
  induction r with
  | nil => intro p v x hx; simp [setProp] at hx; exact Or.inr hx
  | cons e rest ih =>
    intro p v x hx
    unfold setProp at hx
    split_ifs at hx with he
    · simp at hx
      rcases hx with rfl | hx
      · exact Or.inr rfl
      · exact Or.inl (by simp [hx])
    · simp at hx
      rcases hx with rfl | hx
      · exact Or.inl (by simp)
      · rcases ih p v x (by simpa using hx) with h1 | h1
        · exact Or.inl (by simp [h1])
        · exact Or.inr h1

theorem propsNodup_setProp : ∀ (r : JRow) (p : String) (v : JVal),
    propsNodup r → propsNodup (setProp r p v) := by
  intro r
  induction r with
  | nil => intro p v _; simp [setProp, propsNodup]
  | cons e rest ih =>
    intro p v hnd
    unfold propsNodup at hnd
    simp only [List.map_cons, List.nodup_cons] at hnd
    unfold setProp
    split_ifs with he
    · unfold propsNodup
      simp only [List.map_cons, List.nodup_cons]
      exact ⟨fun hm => hnd.1 (he ▸ hm), hnd.2⟩
    · unfold propsNodup
      simp only [List.map_cons, List.nodup_cons]
      refine ⟨?_, ih p v hnd.2⟩
      intro hm
      rcases keys_setProp_subset rest p v e.1 hm with h1 | h1
      · exact hnd.1 h1
      · exact he h1

theorem getProp_mergePropStep_self (ex : JRow) (q : String × JVal) :
    getProp (mergePropStep ex q) q.1 = mergeField (getProp ex q.1) q.1 (some q.2) := by
  by_cases h1 : replaceableVal (getProp ex q.1) = true
  · by_cases h2 : q.2 = JVal.jnull
    · simp [mergePropStep, mergeField, h1, h2]
    · simp [mergePropStep, mergeField, h1, h2, getProp_setProp_self]
  · by_cases h3 : (q.1 = "verified_at" && !hasTimestampJ (getProp ex q.1) &&
        hasTimestampJ (some q.2)) = true
    · simp [mergePropStep, mergeField, h1, h3, getProp_setProp_self]
    · simp [mergePropStep, mergeField, h1, h3]

theorem getProp_mergePropStep_ne (ex : JRow) (q : String × JVal) (p : String)
    (h : p ≠ q.1) : getProp (mergePropStep ex q) p = getProp ex p := by
  by_cases h1 : replaceableVal (getProp ex q.1) = true
  · by_cases h2 : q.2 = JVal.jnull
    · simp [mergePropStep, h1, h2]
    · simp [mergePropStep, h1, h2, getProp_setProp_ne ex q.1 q.2 p h]
  · by_cases h3 : (q.1 = "verified_at" && !hasTimestampJ (getProp ex q.1) &&
        hasTimestampJ (some q.2)) = true
    · simp [mergePropStep, h1, h3, getProp_setProp_ne ex q.1 q.2 p h]
    · simp [mergePropStep, h1, h3]

theorem propsNodup_mergePropStep (ex : JRow) (q : String × JVal)
    (h : propsNodup ex) : propsNodup (mergePropStep ex q) := by
  by_cases h1 : replaceableVal (getProp ex q.1) = true
  · by_cases h2 : q.2 = JVal.jnull
    · simpa [mergePropStep, h1, h2] using h
    · simpa [mergePropStep, h1, h2] using propsNodup_setProp ex q.1 q.2 h
  · by_cases h3 : (q.1 = "verified_at" && !hasTimestampJ (getProp ex q.1) &&
        hasTimestampJ (some q.2)) = true
    · simpa [mergePropStep, h1, h3] using propsNodup_setProp ex q.1 q.2 h
    · simpa [mergePropStep, h1, h3] using h

theorem getProp_mergeInto : ∀ (r : JRow) (ex : JRow) (p : String), propsNodup r →
    getProp (mergeInto ex r) p = mergeField (getProp ex p) p (getProp r p) := by
  intro r
  induction r with
  | nil => intro ex p _; rfl
  | cons q rest ih =>
    intro ex p hnd
    unfold propsNodup at hnd
    simp only [List.map_cons, List.nodup_cons] at hnd
    show getProp (mergeInto (mergePropStep ex q) rest) p = _
    rw [ih (mergePropStep ex q) p hnd.2]
    by_cases hpq : p = q.1
    · subst hpq
      rw [getProp_eq_none_of_not_mem hnd.1, getProp_mergePropStep_self,
        getProp_cons, if_pos rfl]
      rfl
    · rw [getProp_mergePropStep_ne ex q p hpq, getProp_cons, if_neg hpq]

theorem propsNodup_mergeInto : ∀ (r : JRow) (ex : JRow),
    propsNodup ex → propsNodup (mergeInto ex r) := by
  intro r
  induction r with
  | nil => intro ex h; exact h
  | cons q rest ih =>
    intro ex h
    exact ih (mergePropStep ex q) (propsNodup_mergePropStep ex q h)

/-! ## Claim C4: the grouping map -/

theorem keys_insertMerge : ∀ (acc : List (String × JRow)) (k : String) (r : JRow),
    (insertMerge acc k r).map Prod.fst =
      if k ∈ acc.map Prod.fst then acc.map Prod.fst else acc.map Prod.fst ++ [k] := by
  intro acc
  induction acc with
  | nil => intro k r; simp [insertMerge]
  | cons e rest ih =>
    intro k r
    by_cases he : e.1 = k
    · rw [show insertMerge (e :: rest) k r = (k, mergeInto e.2 r) :: rest from by
        unfold insertMerge; rw [if_pos he]]
      have hk : k ∈ (e :: rest).map Prod.fst := by simp [← he]
      rw [if_pos hk]
      simp [he]
    · rw [show insertMerge (e :: rest) k r = e :: insertMerge rest k r from by
        simp only [insertMerge]; rw [if_neg he]]
      by_cases hk : k ∈ rest.map Prod.fst
      · have hk2 : k ∈ (e :: rest).map Prod.fst := by simp [hk]
        rw [if_pos hk2]
        simp [ih k r, hk]
      · have hk2 : k ∉ (e :: rest).map Prod.fst := by
          simp only [List.map_cons, List.mem_cons]
          rintro (h1 | h1)
          · exact he h1.symm
          · exact hk h1
        rw [if_neg hk2]
        simp [ih k r, hk]

theorem insertMerge_mem : ∀ {acc : List (String × JRow)} {k : String} {r : JRow}
    {k' : String} {e' : JRow}, (acc.map Prod.fst).Nodup →
    (k', e') ∈ insertMerge acc k r →
      ((k', e') ∈ acc ∧ k' ≠ k) ∨
      (k' = k ∧ ∃ e, (k, e) ∈ acc ∧ e' = mergeInto e r) ∨
      (k' = k ∧ k ∉ acc.map Prod.fst ∧ e' = r) := by
  intro acc
  induction acc with
  | nil =>
    intro k r k' e' _ hm
    simp [insertMerge] at hm
    exact Or.inr (Or.inr ⟨hm.1, by simp, hm.2⟩)
  | cons e rest ih =>
    intro k r k' e' hnd hm
    simp only [List.map_cons, List.nodup_cons] at hnd
    unfold insertMerge at hm
    split_ifs at hm with he
    · rcases List.mem_cons.mp hm with h1 | h1
      · rw [Prod.mk.injEq] at h1
        obtain ⟨rfl, rfl⟩ := h1
        refine Or.inr (Or.inl ⟨rfl, e.2, ?_, rfl⟩)
        rw [← he]
        exact List.mem_cons_self e rest
      · left
        refine ⟨List.mem_cons_of_mem e h1, ?_⟩
        intro hk
        subst hk
        subst he
        exact hnd.1 (by simpa using List.mem_map_of_mem Prod.fst h1)
    · rcases List.mem_cons.mp hm with h1 | h1
      · left
        refine ⟨List.mem_cons.mpr (Or.inl h1), ?_⟩
        intro hk
        exact he ((congrArg Prod.fst h1).symm.trans hk)
      · rcases ih hnd.2 h1 with ⟨hm1, hne⟩ | ⟨rfl, e0, he0, rfl⟩ | ⟨rfl, hni, rfl⟩
        · exact Or.inl ⟨List.mem_cons_of_mem e hm1, hne⟩
        · exact Or.inr (Or.inl ⟨rfl, e0, List.mem_cons_of_mem e he0, rfl⟩)
        · refine Or.inr (Or.inr ⟨rfl, ?_, rfl⟩)
          intro hk
          simp only [List.map_cons, List.mem_cons] at hk
          rcases hk with h2 | h2
          · exact he h2.symm
          · exact hni h2

/-! ## Claim C4: groups and first-value selectors -/

theorem groupRows_append_self (rows : List JRow) (r : JRow) :
    groupRows (rows ++ [r]) (rowGroupKey r) = groupRows rows (rowGroupKey r) ++ [r] := by
  unfold groupRows
  rw [List.filter_append]
  congr 1
  have hb : (rowGroupKey r == rowGroupKey r) = true := beq_self_eq_true _
  simp [List.filter_cons, List.filter_nil, hb]

theorem groupRows_append_other (rows : List JRow) (r : JRow) (k : String)
    (h : rowGroupKey r ≠ k) : groupRows (rows ++ [r]) k = groupRows rows k := by
  unfold groupRows
  rw [List.filter_append]
  have hb : (rowGroupKey r == k) = false := beq_eq_false_iff_ne.mpr h
  simp [List.filter_cons, List.filter_nil, hb]

theorem groupRows_nil_of_not_mem : ∀ {rows : List JRow} {k : String},
    k ∉ rows.map rowGroupKey → groupRows rows k = [] := by
  intro rows
  induction rows with
  | nil => intro k _; rfl
  | cons r rest ih =>
    intro k h
    unfold groupRows
    have h1 : rowGroupKey r ≠ k := fun he => h (by simp [he])
    have hb : (rowGroupKey r == k) = false := beq_eq_false_iff_ne.mpr h1
    rw [List.filter_cons, hb]
    show List.filter _ rest = []
    exact ih (fun hm => h (by simp [hm]))

theorem firstGoodVal_append (g₁ g₂ : List JRow) (p : String) :
    firstGoodVal (g₁ ++ g₂) p = (firstGoodVal g₁ p).or (firstGoodVal g₂ p) :=
  List.findSome?_append

theorem firstTimestampVal_append (g₁ g₂ : List JRow) :
    firstTimestampVal (g₁ ++ g₂) = (firstTimestampVal g₁).or (firstTimestampVal g₂) :=
  List.findSome?_append

theorem firstGoodVal_single_some {r : JRow} {p : String} {v : JVal}
    (h : firstGoodVal [r] p = some v) : getProp r p = some v ∧ goodVal v = true := by
  unfold firstGoodVal at h
  rw [List.findSome?_cons] at h
  rcases hg : getProp r p with _ | w
  · rw [hg] at h
    simp at h
  · rw [hg] at h
    by_cases hgw : goodVal w = true
    · simp [hgw] at h
      refine ⟨?_, ?_⟩
      · rw [h]
      · rw [← h]
        exact hgw
    · simp [hgw] at h

theorem firstGoodVal_single_none {r : JRow} {p : String}
    (h : firstGoodVal [r] p = none) : replaceableVal (getProp r p) = true := by
  unfold firstGoodVal at h
  rw [List.findSome?_cons] at h
  rcases hg : getProp r p with _ | w
  · rfl
  · rw [hg] at h
    by_cases hgw : goodVal w = true
    · simp [hgw] at h
    · show replaceableVal (some w) = true
      cases w with
      | jnull => rfl
      | jstr s =>
        simp [goodVal] at hgw
        simp [replaceableVal, hgw]
      | jnum n => simp [goodVal] at hgw
      | jobj a b => simp [goodVal] at hgw

theorem firstTimestampVal_single_some {r : JRow} {v : JVal}
    (h : firstTimestampVal [r] = some v) :
    getProp r "verified_at" = some v ∧ hasTimestampJ (some v) = true := by
  unfold firstTimestampVal at h
  rw [List.findSome?_cons] at h
  by_cases hts : hasTimestampJ (getProp r "verified_at") = true
  · rcases hg : getProp r "verified_at" with _ | w
    · rw [hg] at hts
      simp [hasTimestampJ] at hts
    · rw [hg] at h hts
      simp [hts] at h
      subst h
      exact ⟨rfl, hts⟩
  · simp [hts] at h

theorem firstTimestampVal_single_none {r : JRow}
    (h : firstTimestampVal [r] = none) :
    hasTimestampJ (getProp r "verified_at") = false := by
  by_cases hts : hasTimestampJ (getProp r "verified_at") = true
  · exfalso
    unfold firstTimestampVal at h
    rw [List.findSome?_cons] at h
    rcases hg : getProp r "verified_at" with _ | w
    · rw [hg] at hts
      simp [hasTimestampJ] at hts
    · rw [hg] at h hts
      simp [hts] at h
  · simpa using hts

/-! ## Claim C4: mergeField behavior -/

theorem replaceableVal_some (v : JVal) : replaceableVal (some v) = !goodVal v := by
  cases v <;> simp [replaceableVal, goodVal]

theorem goodVal_ne_null {v : JVal} (h : goodVal v = true) : v ≠ JVal.jnull := by
  intro he
  subst he
  simp [goodVal] at h

theorem hasTS_ne_null {v : JVal} (h : hasTimestampJ (some v) = true) : v ≠ JVal.jnull := by
  intro he
  subst he
  simp [hasTimestampJ] at h

theorem hasTS_not_replaceable {ev : Option JVal} (h : hasTimestampJ ev = true) :
    replaceableVal ev = false := by
  rcases ev with _ | v
  · simp [hasTimestampJ] at h
  · cases v with
    | jnull => simp [hasTimestampJ] at h
    | jstr s =>
      simp [hasTimestampJ] at h
      simp [replaceableVal, h]
    | jnum n => rfl
    | jobj a b => rfl

theorem mergeField_none (ev : Option JVal) (p : String) : mergeField ev p none = ev := rfl

theorem mergeField_some (ev : Option JVal) (p : String) (v : JVal) :
    mergeField ev p (some v) =
      if replaceableVal ev = true then (if v = JVal.jnull then ev else some v)
      else if (p = "verified_at" && !hasTimestampJ ev && hasTimestampJ (some v)) = true
      then some v else ev := rfl

theorem mergeField_keep {ev : Option JVal} {p : String} (rv : Option JVal)
    (h : replaceableVal ev = false) (hp : p ≠ "verified_at") :
    mergeField ev p rv = ev := by
  rcases rv with _ | v
  · rfl
  · rw [mergeField_some]
    rw [if_neg (by simp [h])]
    rw [if_neg (by simp [hp])]

theorem mergeField_keep_ts {ev : Option JVal} (rv : Option JVal)
    (h : hasTimestampJ ev = true) : mergeField ev "verified_at" rv = ev := by
  rcases rv with _ | v
  · rfl
  · rw [mergeField_some]
    rw [if_neg (by simp [hasTS_not_replaceable h])]
    rw [if_neg (by simp [h])]

theorem mergeField_install_good {ev : Option JVal} {p : String} {v : JVal}
    (hev : replaceableVal ev = true) (hv : goodVal v = true) :
    mergeField ev p (some v) = some v := by
  rw [mergeField_some]
  rw [if_pos (by simp [hev]), if_neg (goodVal_ne_null hv)]

theorem mergeField_install_ts {ev : Option JVal} {v : JVal}
    (hev : hasTimestampJ ev = false) (hv : hasTimestampJ (some v) = true) :
    mergeField ev "verified_at" (some v) = some v := by
  rw [mergeField_some]
  by_cases hr : replaceableVal ev = true
  · rw [if_pos (by simp [hr]), if_neg (hasTS_ne_null hv)]
  · rw [if_neg (by simpa using hr)]
    rw [if_pos]
    simp [hev, hv]

theorem mergeField_bad {ev : Option JVal} {p : String} (rv : Option JVal)
    (hev : replaceableVal ev = true)
    (hrv : ∀ w, rv = some w → goodVal w = false) :
    replaceableVal (mergeField ev p rv) = true := by
  rcases rv with _ | v
  · exact hev
  · rw [mergeField_some]
    rw [if_pos (by simp [hev])]
    by_cases hn : v = JVal.jnull
    · rw [if_pos hn]
      exact hev
    · rw [if_neg hn]
      rw [replaceableVal_some, hrv v rfl]
      rfl

theorem mergeField_no_ts {ev : Option JVal} (rv : Option JVal)
    (hev : hasTimestampJ ev = false)
    (hrv : hasTimestampJ rv = false) :
    hasTimestampJ (mergeField ev "verified_at" rv) = false := by
  rcases rv with _ | v
  · exact hev
  · rw [mergeField_some]
    by_cases hr : replaceableVal ev = true
    · rw [if_pos (by simp [hr])]
      by_cases hn : v = JVal.jnull
      · rw [if_pos hn]
        exact hev
      · rw [if_neg hn]
        exact hrv
    · rw [if_neg (by simpa using hr)]
      rw [if_neg (by simp [hrv])]
      exact hev

theorem firstGoodVal_good : ∀ {g : List JRow} {p : String} {v : JVal},
    firstGoodVal g p = some v → goodVal v = true := by
  intro g
  induction g with
  | nil =>
    intro p v h
    simp [firstGoodVal] at h
  | cons r rest ih =>
    intro p v h
    unfold firstGoodVal at h
    rw [List.findSome?_cons] at h
    rcases hg : getProp r p with _ | w
    · rw [hg] at h
      exact ih h
    · rw [hg] at h
      by_cases hgw : goodVal w = true
      · simp [hgw] at h
        rw [← h]
        exact hgw
      · simp [hgw] at h
        exact ih h

theorem firstTimestampVal_ts : ∀ {g : List JRow} {v : JVal},
    firstTimestampVal g = some v → hasTimestampJ (some v) = true := by
  intro g
  induction g with
  | nil =>
    intro v h
    simp [firstTimestampVal] at h
  | cons r rest ih =>
    intro v h
    unfold firstTimestampVal at h
    rw [List.findSome?_cons] at h
    by_cases hts : hasTimestampJ (getProp r "verified_at") = true
    · rcases hg : getProp r "verified_at" with _ | w
      · rw [hg] at hts
        simp [hasTimestampJ] at hts
      · rw [hg] at h hts
        simp [hts] at h
        subst h
        exact hts
    · simp [hts] at h
      exact ih h

theorem mergeInv_step {processed : List JRow} {acc : List (String × JRow)} {r : JRow}
    (hr : propsNodup r) (hinv : MergeInv processed acc) :
    MergeInv (processed ++ [r]) (insertMerge acc (rowGroupKey r) r) := by
  obtain ⟨hnd, hiff, hent⟩ := hinv
  refine ⟨?_, ?_, ?_⟩
  · rw [keys_insertMerge]
    by_cases hk : rowGroupKey r ∈ acc.map Prod.fst
    · rw [if_pos hk]
      exact hnd
    · rw [if_neg hk]
      refine List.nodup_append.mpr ⟨hnd, List.nodup_singleton _, ?_⟩
      intro a ha hb
      rw [List.mem_singleton] at hb
      subst hb
      exact hk ha
  · intro k
    rw [keys_insertMerge, List.map_append]
    by_cases hk : rowGroupKey r ∈ acc.map Prod.fst
    · rw [if_pos hk]
      constructor
      · intro h
        exact List.mem_append_left _ ((hiff k).mp h)
      · intro h
        rcases List.mem_append.mp h with h1 | h1
        · exact (hiff k).mpr h1
        · simp only [List.map_cons, List.map_nil, List.mem_singleton] at h1
          rw [h1]
          exact hk
    · rw [if_neg hk]
      constructor
      · intro h
        rcases List.mem_append.mp h with h1 | h1
        · exact List.mem_append_left _ ((hiff k).mp h1)
        · rw [List.mem_singleton] at h1
          rw [h1]
          exact List.mem_append_right _ (by simp)
      · intro h
        rcases List.mem_append.mp h with h1 | h1
        · exact List.mem_append_left _ ((hiff k).mpr h1)
        · simp only [List.map_cons, List.map_nil, List.mem_singleton] at h1
          rw [h1]
          exact List.mem_append_right _ (by simp)
  · intro k e hke
    rcases insertMerge_mem hnd hke with ⟨hmem, hne⟩ | ⟨rfl, e0, he0, rfl⟩ | ⟨rfl, hni, he⟩
    · rw [groupRows_append_other processed r k (Ne.symm hne)]
      exact hent k e hmem
    · obtain ⟨hnde0, hb, hbn, hc, hcn⟩ := hent (rowGroupKey r) e0 he0
      rw [groupRows_append_self]
      refine ⟨propsNodup_mergeInto r e0 hnde0, ?_, ?_, ?_, ?_⟩
      · intro p hp v hv
        rw [firstGoodVal_append] at hv
        rw [getProp_mergeInto r e0 p hr]
        rcases hfg : firstGoodVal (groupRows processed (rowGroupKey r)) p with _ | v1
        · rw [hfg, Option.none_or] at hv
          obtain ⟨hrp, hgv⟩ := firstGoodVal_single_some hv
          rw [hrp]
          exact mergeField_install_good (hbn p hp hfg) hgv
        · rw [hfg] at hv
          simp only [Option.or, Option.some.injEq] at hv
          subst hv
          rw [hb p hp v1 hfg]
          refine mergeField_keep (getProp r p) ?_ hp
          rw [replaceableVal_some, firstGoodVal_good hfg]
          rfl
      · intro p hp hv
        rw [firstGoodVal_append] at hv
        rw [getProp_mergeInto r e0 p hr]
        rcases hfg : firstGoodVal (groupRows processed (rowGroupKey r)) p with _ | v1
        · rw [hfg, Option.none_or] at hv
          have hbad := firstGoodVal_single_none hv
          refine mergeField_bad (getProp r p) (hbn p hp hfg) ?_
          intro w hw
          rw [hw, replaceableVal_some] at hbad
          simpa using hbad
        · rw [hfg] at hv
          simp [Option.or] at hv
      · intro v hv
        rw [firstTimestampVal_append] at hv
        rw [getProp_mergeInto r e0 "verified_at" hr]
        rcases hft : firstTimestampVal (groupRows processed (rowGroupKey r)) with _ | v1
        · rw [hft, Option.none_or] at hv
          obtain ⟨hrp, htv⟩ := firstTimestampVal_single_some hv
          rw [hrp]
          exact mergeField_install_ts (hcn hft) htv
        · rw [hft] at hv
          simp only [Option.or, Option.some.injEq] at hv
          subst hv
          rw [hc v1 hft]
          exact mergeField_keep_ts (getProp r "verified_at") (firstTimestampVal_ts hft)
      · intro hv
        rw [firstTimestampVal_append] at hv
        rw [getProp_mergeInto r e0 "verified_at" hr]
        rcases hft : firstTimestampVal (groupRows processed (rowGroupKey r)) with _ | v1
        · rw [hft, Option.none_or] at hv
          exact mergeField_no_ts (getProp r "verified_at") (hcn hft)
            (firstTimestampVal_single_none hv)
        · rw [hft] at hv
          simp [Option.or] at hv
    · have hnp : rowGroupKey r ∉ processed.map rowGroupKey :=
        fun hm => hni ((hiff _).mpr hm)
      rw [he, groupRows_append_self, groupRows_nil_of_not_mem hnp, List.nil_append]
      refine ⟨hr, ?_, ?_, ?_, ?_⟩
      · intro p hp v hv
        exact (firstGoodVal_single_some hv).1
      · intro p hp hv
        exact firstGoodVal_single_none hv
      · intro v hv
        exact (firstTimestampVal_single_some hv).1
      · intro hv
        exact firstTimestampVal_single_none hv

theorem mergeInv_fold : ∀ (rows processed : List JRow) (acc : List (String × JRow)),
    (∀ r ∈ rows, propsNodup r) → MergeInv processed acc →
    MergeInv (processed ++ rows)
      (rows.foldl (fun a r => insertMerge a (rowGroupKey r) r) acc) := by
  intro rows
  induction rows with
  | nil =>
    intro processed acc _ hinv
    simpa using hinv
  | cons r rest ih =>
    intro processed acc hn hinv
    have h1 := mergeInv_step (hn r (by simp)) hinv
    have h2 := ih (processed ++ [r]) _ (fun x hx => hn x (by simp [hx])) h1
    simpa [List.append_assoc] using h2

theorem mergeInv_mergeAcc (rows : List JRow) (h : ∀ r ∈ rows, propsNodup r) :
    MergeInv rows (mergeAcc rows) := by
  have h0 : MergeInv [] [] := by
    refine ⟨List.nodup_nil, fun k => by simp, fun k e hke => by simp at hke⟩
  have h1 := mergeInv_fold rows [] [] h h0
  simpa [mergeAcc] using h1

/-- C4: mergeVerifyRows groups the verification records by composite key and
produces exactly one record per key: the grouping map's keys are distinct
and are exactly the composite keys of the input records, and the output is
the map's records in insertion order.  Each non-timestamp field of the
record produced for a key carries the first non-null/non-empty value among
that group's records in input order, and the completion timestamp
verified_at carries the value of the first record of the group, in input
order, that actually has a timestamp. -/
theorem mergeVerifyRows_first_nonempty :
    ∀ rows : List JRow, (∀ r ∈ rows, propsNodup r) →
      ((mergeAcc rows).map Prod.fst).Nodup ∧
      (∀ k, k ∈ (mergeAcc rows).map Prod.fst ↔ k ∈ rows.map rowGroupKey) ∧
      mergeVerifyRows rows = (mergeAcc rows).map Prod.snd ∧
      (∀ k e, (k, e) ∈ mergeAcc rows →
        (∀ p, p ≠ "verified_at" → ∀ v,
          firstGoodVal (groupRows rows k) p = some v → getProp e p = some v) ∧
        (∀ v, firstTimestampVal (groupRows rows k) = some v →
          getProp e "verified_at" = some v)) := by
  intro rows h
  obtain ⟨h1, h2, h3⟩ := mergeInv_mergeAcc rows h
  exact ⟨h1, h2, rfl, fun k e hke =>
    ⟨fun p hp v hv => (h3 k e hke).2.1 p hp v hv,
     fun v hv => (h3 k e hke).2.2.2.1 v hv⟩⟩

/-- C4 witness: the theorem applied to two concrete partial records of one
composite key; the merged record takes New_Color and verified_at from the
second record, the first having null in both. -/
theorem mergeVerifyRows_first_nonempty_witness :
    getProp (mergeInto mergeR1 mergeR2) "New_Color" = some (JVal.jstr "BLUE") ∧
    getProp (mergeInto mergeR1 mergeR2) "verified_at" = some (JVal.jstr "2024-01-02") := by
  have h := mergeVerifyRows_first_nonempty [mergeR1, mergeR2] (by decide)
  have hm := h.2.2.2 (rowGroupKey mergeR1) (mergeInto mergeR1 mergeR2) (by decide)
  exact ⟨hm.1 "New_Color" (by decide) (JVal.jstr "BLUE") (by decide),
    hm.2 (JVal.jstr "2024-01-02") (by decide)⟩

/-! ## Claim C3 -/

/-- C3, counterexample: an abort is not a barrier for the whole cycle.  A
cycle whose signal aborts at the stock batch — which load issues without
the signal — still fires setRows and setTotal, and a cycle aborted at the
verify fetch has already fired setDispatchedSet. -/
theorem cycleSetters_abort_counterexample :
    SetterEv.sRows ∈ cycleSetters (some FetchPoint.stockBatch) ∧
    SetterEv.sTotal ∈ cycleSetters (some FetchPoint.stockBatch) ∧
    SetterEv.sDispatchedSet ∈ cycleSetters (some FetchPoint.verifyList) := by
  decide

/-- C3 (amended): the exact setters a cycle fires at every abort point.
Aborts observed by the three signal-bound returning fetches stop the cycle,
but only with the setters already fired (setDispatchedSet after the
dispatched fetch, setPendingSet after the verify fetch); an abort at the
invoice fetch is swallowed by its catch and an abort at the stock batch is
never observed (it carries no signal), so both still fire setInvoiceMap,
setRows and setTotal. -/
theorem cycleSetters_characterization :
    cycleSetters none =
      [.sDispatchedSet, .sPendingSet, .sInvoiceMap, .sRows, .sTotal] ∧
    cycleSetters (some .dispatchedKeys) = [] ∧
    cycleSetters (some .verifyList) = [.sDispatchedSet] ∧
    cycleSetters (some .ordersQuery) = [.sDispatchedSet, .sPendingSet] ∧
    cycleSetters (some .invoiceDetails) =
      [.sDispatchedSet, .sPendingSet, .sInvoiceMap, .sRows, .sTotal] ∧
    cycleSetters (some .stockBatch) =
      [.sDispatchedSet, .sPendingSet, .sInvoiceMap, .sRows, .sTotal] := by
  decide

/-! ## Claim C7 -/

/-- C7: a failed verification submission — a non-2xx response or a thrown
request — leaves the component state exactly as it was: the visible rows,
the pending set, the pending map, the selected colors, the checkbox state
and the displayed total are all unchanged. -/
theorem handleVerifySelected_failure_unchanged :
    ∀ st : VState, handleVerifySelected st .httpError = st ∧
      handleVerifySelected st .threw = st := by
  intro st
  refine ⟨?_, ?_⟩ <;>
    (unfold handleVerifySelected; split <;> rfl)

/-- C7 witness: the theorem applied at a concrete state. -/
theorem handleVerifySelected_failure_witness :
    handleVerifySelected {} .httpError = ({} : VState) ∧
    handleVerifySelected {} .threw = ({} : VState) :=
  handleVerifySelected_failure_unchanged {}

/-! ## Claim C10 -/

theorem applyTotalOp_nonneg (t : Int) (op : TotalOp)
    (h : ∀ dt il, op = TotalOp.hookLoadSuccess (some dt) il → 0 ≤ dt) :
    0 ≤ applyTotalOp t op := by
  cases op with
  | loadSuccess s i f => exact le_max_left 0 _
  | loadFailed => exact le_refl 0
  | verifyRequest n => exact le_max_left 0 _
  | saveDispatched n => exact le_max_left 0 _
  | hookLoadSuccess dt il =>
    cases dt with
    | none => exact Nat.cast_nonneg il
    | some n => exact h n il rfl
  | hookLoadFailed => exact le_refl 0

theorem foldl_totalOp_nonneg : ∀ (ops : List TotalOp) (t : Int), 0 ≤ t →
    (∀ dt il, TotalOp.hookLoadSuccess (some dt) il ∈ ops → 0 ≤ dt) →
    0 ≤ ops.foldl applyTotalOp t := by
  intro ops
  induction ops with
  | nil =>
    intro t h _
    exact h
  | cons op rest ih =>
    intro t _ hh
    refine ih (applyTotalOp t op) ?_ ?_
    · refine applyTotalOp_nonneg t op ?_
      intro dt il he
      exact hh dt il (he ▸ List.mem_cons_self op rest)
    · intro dt il hm
      exact hh dt il (List.mem_cons_of_mem op hm)

/-- C10, counterexample: the useSalesOrders hook's own live-load effect
writes the server-reported total to the displayed total without a clamp,
so a single hook load carrying a negative reported total drives the total
negative from the initial state. -/
theorem total_negative_counterexample :
    applyTotalOp initialTotal (TotalOp.hookLoadSuccess (some (-3)) 0) = -3 ∧
    [TotalOp.hookLoadSuccess (some (-3)) 0].foldl applyTotalOp initialTotal < 0 := by
  decide

/-- C10 (amended): the displayed total starts at zero.  The table
component's writers all clamp: a successful cycle writes the non-negative
computed total, a failed cycle writes zero, and the verify-request and
save-dispatched decrements write exactly max(0, previous − count), the
verify success path writing max(0, previous − submitted count).  The
hook's failure write is zero and its non-finite fallback the row count,
both non-negative; but the hook's live-load success write passes the
server-reported total through unclamped, so the total is guaranteed
non-negative across a write sequence only when every hook load in it
reports a non-negative total — the original claim that every updating
operation clamps via max(0, ·) is false. -/
theorem total_writers_characterized :
    0 ≤ initialTotal ∧
    (∀ (t s : Int) (i f : Nat), 0 ≤ applyTotalOp t (.loadSuccess s i f)) ∧
    (∀ t : Int, applyTotalOp t .loadFailed = 0) ∧
    (∀ (t : Int) (n : Nat), applyTotalOp t (.verifyRequest n) = max 0 (t - (n : Int))) ∧
    (∀ (t : Int) (n : Nat), applyTotalOp t (.saveDispatched n) = max 0 (t - (n : Int))) ∧
    (∀ st : VState, (applyVerifySuccess st).total =
      max 0 (st.total - (rowsToSendOf st).length)) ∧
    (∀ t : Int, applyTotalOp t .hookLoadFailed = 0) ∧
    (∀ (t : Int) (il : Nat), applyTotalOp t (.hookLoadSuccess none il) = (il : Int)) ∧
    (∀ (t dt : Int) (il : Nat), applyTotalOp t (.hookLoadSuccess (some dt) il) = dt) ∧
    (∀ ops : List TotalOp,
      (∀ dt il, TotalOp.hookLoadSuccess (some dt) il ∈ ops → 0 ≤ dt) →
      0 ≤ ops.foldl applyTotalOp initialTotal) := by
  refine ⟨le_refl 0, ?_, fun t => rfl, fun t n => rfl, fun t n => rfl, fun st => rfl,
    fun t => rfl, fun t il => rfl, fun t dt il => rfl, ?_⟩
  · intro t s i f
    exact le_max_left 0 _
  · intro ops h
    exact foldl_totalOp_nonneg ops initialTotal (le_refl 0) h

/-- C10 witness: the amended theorem applied at a concrete write sequence
whose hook load reports a non-negative total. -/
theorem total_writers_witness :
    0 ≤ [TotalOp.hookLoadSuccess (some 4) 2, TotalOp.verifyRequest 1].foldl
      applyTotalOp initialTotal :=
  total_writers_characterized.2.2.2.2.2.2.2.2.2
    [TotalOp.hookLoadSuccess (some 4) 2, TotalOp.verifyRequest 1]
    (by
      intro dt il h
      simp at h
      rw [h.1]
      decide)

/-! ## Claim C5 -/

/-- C5: the zero-stock rule of the reconciler.  A row with no stock data at
all is kept, a row whose total stock is exactly the number 0 is dropped, a
row whose stock fails to parse as a number (NaN) is dropped, a row with a
non-zero numeric stock is kept; the stock filter stage is exactly the
filter by this rule; and every row of a cycle's final visible output
satisfies it. -/
theorem stock_zero_excluded :
    stockKeep none = true ∧
    stockKeep (some (JNum.num 0)) = false ∧
    stockKeep (some JNum.nan) = false ∧
    (∀ q : ℚ, q ≠ 0 → stockKeep (some (JNum.num q)) = true) ∧
    (∀ rows : List SRow,
      stockFilterStage rows = rows.filter (fun r => stockKeep r.Stock)) ∧
    (∀ parseIso parseMs inp, ∀ r ∈ reconcileRows parseIso parseMs inp,
      stockKeep r.Stock = true) := by
  refine ⟨rfl, by decide, rfl, ?_, fun rows => rfl, ?_⟩
  · intro q hq
    show decide (q ≠ 0) = true
    exact decide_eq_true hq
  · intro parseIso parseMs inp r hr
    simp only [reconcileRows, custItemFilterStage, stockFilterStage,
      List.mem_filter] at hr
    exact hr.1.2

/-- C5 witness: the theorem applied at a non-zero stock number and at a
concrete cycle whose surviving row has no stock data. -/
theorem stock_zero_excluded_witness :
    ((5 : ℚ) ≠ 0 ∧ stockKeep (some (JNum.num 5)) = true) ∧
    (wRowOut ∈ reconcileRows wIso wMs wInp ∧ stockKeep wRowOut.Stock = true) :=
  ⟨⟨by decide, stock_zero_excluded.2.2.2.1 5 (by decide)⟩,
   ⟨by decide, stock_zero_excluded.2.2.2.2.2 wIso wMs wInp wRowOut (by decide)⟩⟩

/-! ## Claim C1 -/

theorem rowKeyUpper_assignStock (m : List (String × ℚ)) (r : SRow) :
    rowKeyUpper (assignStockRow m r) = rowKeyUpper r := rfl

theorem mem_stockAssignStage {srows : List StockRec} {rows : List SRow} {r : SRow}
    (h : r ∈ stockAssignStage srows rows) :
    ∃ r' ∈ rows, rowKeyUpper r = rowKeyUpper r' := by
  unfold stockAssignStage at h
  split_ifs at h with hc
  · exact ⟨r, h, rfl⟩
  · rcases List.mem_map.mp h with ⟨r', hm, rfl⟩
    exact ⟨r', hm, rowKeyUpper_assignStock _ r'⟩

theorem dispatched_excluded_aux :
    ∀ (parseIso : String → Option String) (parseMs : String → Option ℚ)
      (inp : ReconcileInput) (r : SRow), r ∈ reconcileRows parseIso parseMs inp →
      rowKeyUpper r ∉ dispatchedNorm inp.dispatchedKeys := by
  intro parseIso parseMs inp r hr
  simp only [reconcileRows, custItemFilterStage, stockFilterStage,
    List.mem_filter] at hr
  have h7 := hr.1.1
  have h6 : r ∈ stockAssignStage inp.stockRows
      (invoiceFilterStage parseIso inp.invMap
        (originPendingFilterStage inp.originPendingKeys
          (pendingFilterStage (localPendingSet inp.verifyRows)
            (dispatchFilterStage (dispatchedNorm inp.dispatchedKeys)
              (annotateRows (localPendingSet inp.verifyRows)
                (verifyMapOf inp.verifyRows) inp.incoming))))) :=
    (mem_insertionSortBy _ _ r).mp h7
  obtain ⟨r', h5, hkey⟩ := mem_stockAssignStage h6
  rw [hkey]
  have h4 := (List.mem_filter.mp h5).1
  have h3 : r' ∈ pendingFilterStage (localPendingSet inp.verifyRows)
      (dispatchFilterStage (dispatchedNorm inp.dispatchedKeys)
        (annotateRows (localPendingSet inp.verifyRows)
          (verifyMapOf inp.verifyRows) inp.incoming)) := by
    simp only [originPendingFilterStage] at h4
    split_ifs at h4 with hc
    · exact h4
    · exact (List.mem_filter.mp h4).1
  have h2 : r' ∈ dispatchFilterStage (dispatchedNorm inp.dispatchedKeys)
      (annotateRows (localPendingSet inp.verifyRows)
        (verifyMapOf inp.verifyRows) inp.incoming) := by
    simp only [pendingFilterStage] at h3
    split_ifs at h3 with hc
    · exact h3
    · exact (List.mem_filter.mp h3).1
  unfold dispatchFilterStage at h2
  split_ifs at h2 with hc
  · intro hmem
    rw [List.isEmpty_iff] at hc
    rw [hc] at hmem
    simp at hmem
  · intro hmem
    have hfalse := (List.mem_filter.mp h2).2
    rw [Bool.not_eq_true'] at hfalse
    have htrue : (dispatchedNorm inp.dispatchedKeys).contains (rowKeyUpper r') = true :=
      List.elem_iff.mpr hmem
    rw [htrue] at hfalse
    exact Bool.noConfusion hfalse

/-- C1, counterexample: the cross-tab verified:confirmed handler prepends
the carried row without consulting the dispatched set, so a later mutation
of the visible set can insert a row whose composite identity is dispatched:
from an empty table the handler inserts the carried row, whose key is a
member of the normalized dispatched set. -/
theorem broadcast_dispatched_counterexample :
    (broadcastVerifiedConfirmed {} bmsgCex "u1").rows = [newRowOf bmsgCex "u1"] ∧
    rowKeyUpper (newRowOf bmsgCex "u1") ∈ dispatchedNorm ["a|||"] := by
  decide

/-- C1 (amended): within one reconciliation cycle the exclusion holds — no
row of the final visible output has its composite key in that cycle's
normalized dispatched set.  The cross-tab verified:confirmed handler,
however, prepends the carried row whenever no visible row already has its
key, without consulting the dispatched set. -/
theorem dispatched_exclusion_and_broadcast :
    (∀ parseIso parseMs inp, ∀ r ∈ reconcileRows parseIso parseMs inp,
      rowKeyUpper r ∉ dispatchedNorm inp.dispatchedKeys) ∧
    (∀ (st : BState) (m : BMsg) (uid : String),
      (broadcastVerifiedConfirmed st m uid).rows =
        if st.rows.any (fun r => rowKeyUpper r == bmsgKey m) then st.rows
        else newRowOf m uid :: st.rows) :=
  ⟨fun parseIso parseMs inp r hr => dispatched_excluded_aux parseIso parseMs inp r hr,
   fun _ _ _ => rfl⟩

/-- C1 witness: the amended theorem applied at a concrete cycle with a
dispatched key that does not match the surviving row. -/
theorem dispatched_exclusion_witness :
    wRowOut ∈ reconcileRows wIso wMs wInp ∧
    rowKeyUpper wRowOut ∉ dispatchedNorm wInp.dispatchedKeys :=
  ⟨by decide, dispatched_exclusion_and_broadcast.1 wIso wMs wInp wRowOut (by decide)⟩

/-! ## Claim C6 -/

theorem sortKey6_le_iff (parseMs : String → Option ℚ) (a b : SRow) :
    sortKey6 parseMs a ≤ sortKey6 parseMs b ↔ visibleSortRel parseMs a b := by
  unfold sortKey6 visibleSortRel
  rw [Prod.Lex.le_iff, Prod.Lex.le_iff]
  simp only [OrderDual.toDual_lt_toDual, OrderDual.toDual_le_toDual, OrderDual.toDual_inj]

theorem rowCompare_not_gt_iff {parseMs : String → Option ℚ} {a b : SRow}
    (ha : wellDated parseMs a) (hb : wellDated parseMs b) :
    (!(rowCompare parseMs a b == Ordering.gt)) = true ↔ visibleSortRel parseMs a b := by
  obtain ⟨x, hx⟩ := Option.isSome_iff_exists.mp ha
  obtain ⟨y, hy⟩ := Option.isSome_iff_exists.mp hb
  have hdx : dKey parseMs a = x := by
    unfold dKey
    rw [hx]
    rfl
  have hdy : dKey parseMs b = y := by
    unfold dKey
    rw [hy]
    rfl
  unfold rowCompare visibleSortRel
  rw [hdx, hdy]
  simp only [hx, hy]
  by_cases hq : qtyKey a = qtyKey b
  · rw [if_neg (not_not_intro hq)]
    by_cases hs : stockKey a = stockKey b
    · rw [if_neg (not_not_intro hs)]
      rcases lt_trichotomy x y with h1 | h1 | h1
      · rw [if_pos h1]
        simp [hq, hs, le_of_lt h1]
        rfl
      · rw [if_neg (by rw [h1]; exact lt_irrefl y), if_pos h1]
        simp [hq, hs, le_of_eq h1]
        rfl
      · rw [if_neg h1.asymm, if_neg h1.ne']
        simp [hq, hs, not_le.mpr h1]
        rfl
    · rw [if_pos hs]
      rcases lt_trichotomy (stockKey b) (stockKey a) with h1 | h1 | h1
      · rw [if_pos h1]
        simp [hq, h1]
        rfl
      · exact absurd h1.symm hs
      · rw [if_neg h1.asymm]
        simp [hq, hs, h1.asymm]
        rfl
  · rw [if_pos hq]
    rcases lt_trichotomy (qtyKey b) (qtyKey a) with h1 | h1 | h1
    · rw [if_pos h1]
      simp [h1]
      rfl
    · exact absurd h1.symm hq
    · rw [if_neg h1.asymm]
      simp [hq, h1.asymm]
      rfl

theorem sortStage_pairwise (parseMs : String → Option ℚ) (rows : List SRow)
    (h : ∀ r ∈ rows, wellDated parseMs r) :
    (sortStage parseMs rows).Pairwise (visibleSortRel parseMs) := by
  have htotal : ∀ a b, a ∈ rows → b ∈ rows →
      ((!(rowCompare parseMs a b == Ordering.gt)) ||
       (!(rowCompare parseMs b a == Ordering.gt))) = true := by
    intro a b ha hb
    rw [Bool.or_eq_true]
    rcases le_total (sortKey6 parseMs a) (sortKey6 parseMs b) with h1 | h1
    · exact Or.inl ((rowCompare_not_gt_iff (h a ha) (h b hb)).mpr
        ((sortKey6_le_iff parseMs a b).mp h1))
    · exact Or.inr ((rowCompare_not_gt_iff (h b hb) (h a ha)).mpr
        ((sortKey6_le_iff parseMs b a).mp h1))
  have htrans : ∀ a b c, a ∈ rows → b ∈ rows → c ∈ rows →
      (!(rowCompare parseMs a b == Ordering.gt)) = true →
      (!(rowCompare parseMs b c == Ordering.gt)) = true →
      (!(rowCompare parseMs a c == Ordering.gt)) = true := by
    intro a b c ha hb hc h1 h2
    have k1 := (sortKey6_le_iff parseMs a b).mpr
      ((rowCompare_not_gt_iff (h a ha) (h b hb)).mp h1)
    have k2 := (sortKey6_le_iff parseMs b c).mpr
      ((rowCompare_not_gt_iff (h b hb) (h c hc)).mp h2)
    exact (rowCompare_not_gt_iff (h a ha) (h c hc)).mpr
      ((sortKey6_le_iff parseMs a c).mp (le_trans k1 k2))
  have hp := pairwise_insertionSortBy
    (fun a b => !(rowCompare parseMs a b == Ordering.gt)) rows htotal htrans rows
    (fun y hy => hy)
  show (insertionSortBy (fun a b => !(rowCompare parseMs a b == Ordering.gt))
    rows).Pairwise (visibleSortRel parseMs)
  refine List.Pairwise.imp_of_mem ?_ hp
  intro x y hx hy hxy
  have hx' := (mem_insertionSortBy _ rows x).mp hx
  have hy' := (mem_insertionSortBy _ rows y).mp hy
  exact (rowCompare_not_gt_iff (h x hx') (h y hy')).mp hxy

theorem so_date_assignStock (m : List (String × ℚ)) (r : SRow) :
    (assignStockRow m r).so_date_parsed = r.so_date_parsed := rfl

theorem mem_stockAssignStage_date {srows : List StockRec} {rows : List SRow} {r : SRow}
    (h : r ∈ stockAssignStage srows rows) :
    ∃ r' ∈ rows, r.so_date_parsed = r'.so_date_parsed := by
  unfold stockAssignStage at h
  split_ifs at h with hc
  · exact ⟨r, h, rfl⟩
  · rcases List.mem_map.mp h with ⟨r', hm, rfl⟩
    exact ⟨r', hm, so_date_assignStock _ r'⟩

theorem mem_annotateRows {pend : List String} {vmap : List (String × JRow)}
    {rows : List SRow} {r : SRow} (h : r ∈ annotateRows pend vmap rows) :
    ∃ r' ∈ rows, r.so_date_parsed = r'.so_date_parsed := by
  unfold annotateRows at h
  rcases List.mem_map.mp h with ⟨p, hp, rfl⟩
  refine ⟨p.2, ?_, rfl⟩
  have hm := List.mem_map_of_mem Prod.snd hp
  rwa [List.enum_map_snd] at hm

theorem wellDated_congr {parseMs : String → Option ℚ} {a b : SRow}
    (h : a.so_date_parsed = b.so_date_parsed) :
    wellDated parseMs a ↔ wellDated parseMs b := by
  unfold wellDated soDateVal
  rw [h]

/-- C6: the finally-visible rows of a cycle are pairwise in the claimed
order — order quantity descending, then total stock descending with
unknown (non-numeric) stock as bottom, then parsed order date ascending
with missing or empty dates as top — provided every incoming row's
so_date_parsed is absent, empty, or parseable, as every server-produced
value of that field (a cast of a SQL DATE) is. -/
theorem visible_rows_sorted :
    ∀ (parseIso : String → Option String) (parseMs : String → Option ℚ)
      (inp : ReconcileInput), (∀ r ∈ inp.incoming, wellDated parseMs r) →
      (reconcileRows parseIso parseMs inp).Pairwise (visibleSortRel parseMs) := by
  intro parseIso parseMs inp h
  have h6 : ∀ r ∈ stockAssignStage inp.stockRows
      (invoiceFilterStage parseIso inp.invMap
        (originPendingFilterStage inp.originPendingKeys
          (pendingFilterStage (localPendingSet inp.verifyRows)
            (dispatchFilterStage (dispatchedNorm inp.dispatchedKeys)
              (annotateRows (localPendingSet inp.verifyRows)
                (verifyMapOf inp.verifyRows) inp.incoming))))),
      wellDated parseMs r := by
    intro r hr
    obtain ⟨r', h5, hd⟩ := mem_stockAssignStage_date hr
    have h4 := (List.mem_filter.mp h5).1
    have h3 : r' ∈ pendingFilterStage (localPendingSet inp.verifyRows)
        (dispatchFilterStage (dispatchedNorm inp.dispatchedKeys)
          (annotateRows (localPendingSet inp.verifyRows)
            (verifyMapOf inp.verifyRows) inp.incoming)) := by
      simp only [originPendingFilterStage] at h4
      split_ifs at h4 with hc
      · exact h4
      · exact (List.mem_filter.mp h4).1
    have h2 : r' ∈ dispatchFilterStage (dispatchedNorm inp.dispatchedKeys)
        (annotateRows (localPendingSet inp.verifyRows)
          (verifyMapOf inp.verifyRows) inp.incoming) := by
      simp only [pendingFilterStage] at h3
      split_ifs at h3 with hc
      · exact h3
      · exact (List.mem_filter.mp h3).1
    have h1 : r' ∈ annotateRows (localPendingSet inp.verifyRows)
        (verifyMapOf inp.verifyRows) inp.incoming := by
      simp only [dispatchFilterStage] at h2
      split_ifs at h2 with hc
      · exact h2
      · exact (List.mem_filter.mp h2).1
    obtain ⟨r0, h0, hd0⟩ := mem_annotateRows h1
    rw [wellDated_congr (hd.trans hd0)]
    exact h r0 h0
  have hsorted := sortStage_pairwise parseMs _ h6
  refine List.Pairwise.sublist ?_ hsorted
  exact List.Sublist.trans (List.filter_sublist _) (List.filter_sublist _)

/-- C6 witness: the theorem applied at a concrete cycle with two well-dated
rows. -/
theorem visible_rows_sorted_witness :
    (∀ r ∈ wInp6.incoming, wellDated wMs r) ∧
    (reconcileRows wIso wMs wInp6).Pairwise (visibleSortRel wMs) :=
  ⟨by decide, visible_rows_sorted wIso wMs wInp6 (by decide)⟩
